import Mathlib

/-!
Verification of the submarine-stripper core (src/main.py) over a shallow
embedding.  The XML document model is a tree of tagged nodes with an
attribute list and ordered children; Python ElementTree dictionaries are
modelled as association lists with first-match lookup and in-place update,
Python sets as duplicate-free lists built by insert-if-absent (membership
is what matters; Python set iteration order is unspecified, so any fixed
order is a valid refinement).  Machine strings are Lean strings; Python
str.lower() is modelled by an ASCII char-wise lowering (the repository's
tag and attribute vocabulary is ASCII).  Imperative in-place tree mutation
is modelled functionally; where the Python code precomputes a node list or
a parent map and then mutates, the comments on each definition record the
correspondence argument.
-/

/-- Document node: tag, attribute list (ElementTree dict: unique keys,
insertion order), ordered children. -/
inductive XML where
  | node (tag : String) (attrs : List (String × String)) (children : List XML)

abbrev Attrs := List (String × String)

def XML.tag : XML → String
  | .node t _ _ => t

def XML.attrs : XML → Attrs
  | .node _ a _ => a

def XML.children : XML → List XML
  | .node _ _ cs => cs

/-- Replace the attribute list of a node (used to model in-place
attribute assignment on an ElementTree element). -/
def XML.withAttrs : XML → Attrs → XML
  | .node t _ cs, a => .node t a cs

/-- Number of nodes of the tree, ignoring strings: the structural measure
used for recursion (in-place attribute edits preserve it). -/
def xsize : XML → Nat
  | .node _ _ cs => 1 + go cs
where go : List XML → Nat
  | [] => 0
  | c :: rest => xsize c + go rest

theorem xsize_go_ge (cs : List XML) (c : XML) (hc : c ∈ cs) : xsize c ≤ xsize.go cs := by
  induction cs with
  | nil => cases hc
  | cons d ds ih =>
    rcases List.mem_cons.mp hc with h | h
    · subst h
      simp only [xsize.go]
      omega
    · have := ih h
      simp only [xsize.go]
      omega

theorem xsize_pos (x : XML) : 1 ≤ xsize x := by
  cases x
  simp [xsize]

theorem xsize_lt_of_mem {c : XML} {t a cs} (hc : c ∈ cs) : xsize c < xsize (.node t a cs) := by
  have := xsize_go_ge cs c hc
  simp only [xsize]
  omega

/-- Structural induction for the nested tree type. -/
theorem XML.strongInd (P : XML → Prop)
    (h : ∀ t a cs, (∀ c ∈ cs, P c) → P (.node t a cs)) : ∀ x, P x := by
  intro x
  generalize hn : xsize x = n
  induction n using Nat.strong_induction_on generalizing x with
  | _ n ih =>
    cases x with
    | node t a cs =>
      refine h t a cs (fun c hc => ?_)
      exact ih (xsize c) (hn ▸ xsize_lt_of_mem hc) c rfl

def xeq : XML → XML → Bool
  | .node t a cs, .node t' a' cs' => t == t' && a == a' && go cs cs'
where go : List XML → List XML → Bool
  | [], [] => true
  | c :: cs, d :: ds => xeq c d && go cs ds
  | _, _ => false

theorem xeq_iff : ∀ x y, xeq x y = true ↔ x = y := by
  intro x
  induction x using XML.strongInd with
  | _ t a cs ih =>
    intro y
    cases y with
    | node t' a' cs' =>
      simp only [xeq, Bool.and_eq_true, beq_iff_eq, XML.node.injEq]
      constructor
      · rintro ⟨⟨h1, h2⟩, h3⟩
        refine ⟨h1, h2, ?_⟩
        clear h1 h2
        induction cs generalizing cs' with
        | nil => cases cs' <;> simp_all [xeq.go]
        | cons c cs ihl =>
          cases cs' with
          | nil => simp [xeq.go] at h3
          | cons d ds =>
            simp only [xeq.go, Bool.and_eq_true] at h3
            have hcd := (ih c (by simp)) d |>.mp h3.1
            have htl := ihl (fun c hc => ih c (by simp [hc])) ds h3.2
            simp [hcd, htl]
      · rintro ⟨h1, h2, h3⟩
        subst h1
        subst h2
        subst h3
        refine ⟨⟨rfl, rfl⟩, ?_⟩
        induction cs with
        | nil => simp [xeq.go]
        | cons c cs ihl =>
          simp only [xeq.go, Bool.and_eq_true]
          exact ⟨(ih c (by simp) c).mpr rfl, ihl (fun c hc => ih c (by simp [hc]))⟩

instance : DecidableEq XML := fun x y => decidable_of_iff _ (xeq_iff x y)

/-- All nodes of the subtree in document order (ElementTree elem.iter()). -/
def preorder : XML → List XML
  | .node t a cs => .node t a cs :: go cs
where go : List XML → List XML
  | [] => []
  | c :: rest => preorder c ++ go rest

/-- All proper descendants in document order: exactly the nodes that have a
parent in the parent map the Python code builds from the root. -/
def properDescendants (x : XML) : List XML :=
  preorder.go x.children

/-- ElementTree root.iter(tagname): subtree nodes with the given tag,
document order, root included. -/
def iterTag (t : String) (x : XML) : List XML :=
  (preorder x).filter (fun c => c.tag == t)

/-- ElementTree elem.findall(tagname): direct children with the tag. -/
def findallTag (t : String) (x : XML) : List XML :=
  x.children.filter (fun c => c.tag == t)

/-- Python dict lookup d.get(k): first (= unique) matching key. -/
def dictGet {β : Type} (m : List (String × β)) (k : String) : Option β :=
  (m.find? (fun p => p.1 == k)).map (fun p => p.2)

/-- Python dict assignment d[k] = v: overwrite in place, else append. -/
def dictSet {β : Type} (m : List (String × β)) (k : String) (v : β) : List (String × β) :=
  if m.any (fun p => p.1 == k) then m.map (fun p => if p.1 == k then (k, v) else p)
  else m ++ [(k, v)]

/-- ElementTree elem.get(key): exact-key attribute lookup. -/
def attrGet (a : Attrs) (k : String) : Option String :=
  dictGet a k

/-- Python truthiness of an optional string: None and the empty string are
falsy. -/
def truthy : Option String → Bool
  | none => false
  | some s => !(s == "")

/-- Python set.update modelled on duplicate-free lists: insert each element
not already present. -/
def setAddAll {β : Type} [BEq β] (s : List β) (xs : List β) : List β :=
  xs.foldl (fun s x => if s.contains x then s else s ++ [x]) s

/-- Python str.lower(), ASCII fragment (the repository's vocabulary). -/
def lowerStr (s : String) : String := ⟨s.data.map Char.toLower⟩

theorem char_toNat_ofNat_valid {n : Nat} (h : n.isValidChar) : (Char.ofNat n).toNat = n := by
  rw [Char.ofNat, dif_pos h]
  simp [Char.ofNatAux, Char.toNat, UInt32.toNat]

theorem char_toLower_not_upper (c : Char) :
    ¬((if c.toNat ≥ 65 ∧ c.toNat ≤ 90 then Char.ofNat (c.toNat + 32) else c).toNat ≥ 65 ∧
      (if c.toNat ≥ 65 ∧ c.toNat ≤ 90 then Char.ofNat (c.toNat + 32) else c).toNat ≤ 90) := by
  by_cases h : c.toNat ≥ 65 ∧ c.toNat ≤ 90
  · rw [if_pos h, char_toNat_ofNat_valid (Or.inl (by omega))]
    omega
  · rw [if_neg h]
    omega

theorem char_toLower_idem (c : Char) : c.toLower.toLower = c.toLower := by
  have h := char_toLower_not_upper c
  conv_lhs => rw [Char.toLower]
  show (if c.toLower.toNat ≥ 65 ∧ c.toLower.toNat ≤ 90 then Char.ofNat (c.toLower.toNat + 32)
        else c.toLower) = c.toLower
  rw [if_neg]
  show ¬(c.toLower.toNat ≥ 65 ∧ c.toLower.toNat ≤ 90)
  unfold Char.toLower
  exact h

theorem lowerStr_idem (s : String) : lowerStr (lowerStr s) = lowerStr s := by
  simp only [lowerStr, List.map_map]
  have h2 : Char.toLower ∘ Char.toLower = Char.toLower := funext char_toLower_idem
  rw [h2]

/-- Split a character list on separator characters (per the predicate),
returning the maximal runs of non-separator characters, in order; cur is
the run being accumulated.  With the separator predicate "not a digit"
this is exactly re.findall of one-or-more digits; with "comma or
whitespace" it is re.split on such runs with empty pieces dropped. -/
def splitGo (p : Char → Bool) (cur : List Char) : List Char → List String
  | [] => if cur == [] then [] else [⟨cur⟩]
  | c :: cs =>
    if p c then (if cur == [] then [] else [⟨cur⟩]) ++ splitGo p [] cs
    else splitGo p (cur ++ [c]) cs

def isNonDigit (c : Char) : Bool := !c.isDigit

/-- extract_ids_from_contained (main.py): all maximal digit runs of a
contained string, as strings, in order. -/
def extract_ids_from_contained (value : String) : List String :=
  if value == "" then [] else splitGo isNonDigit [] value.data

/-- Emit an accumulated digit run: dropped when it equals a deleted id. -/
def emitRun (deleted : List String) (cur : List Char) : List Char :=
  if cur == [] then [] else if deleted.contains ⟨cur⟩ then [] else cur

/-- re.sub of one-or-more digits with the delete-if-deleted replacer:
maximal digit runs are dropped exactly when they are in the deleted set,
every other character is kept unchanged. -/
def removeGo (deleted : List String) (cur : List Char) : List Char → List Char
  | [] => emitRun deleted cur
  | c :: cs =>
    if c.isDigit then removeGo deleted (cur ++ [c]) cs
    else emitRun deleted cur ++ c :: removeGo deleted [] cs

/-- remove_deleted_ids_from_contained (main.py). -/
def remove_deleted_ids_from_contained (value : String) (deleted_ids : List String) : String :=
  if value == "" || deleted_ids == [] then value
  else ⟨removeGo deleted_ids [] value.data⟩

/-- Separator class of re.split on commas and whitespace runs in
item_is_deletable (main.py). -/
def isTagSep (c : Char) : Bool := c == ',' || c.isWhitespace

/-- The tag-token extraction of item_is_deletable (main.py): split the raw
Tags value on commas/whitespace, drop empty pieces, lower-case each token
(the per-token strip is a no-op since pieces contain no whitespace). -/
def tag_tokens (raw : String) : List String :=
  (splitGo isTagSep [] raw.data).map lowerStr

/-- find_attr_case_insensitive (main.py): real key of the attribute dict
whose lower-casing matches the (re-lowered) given name. -/
def find_attr_case_insensitive (attrib : Attrs) (name_lower : String) : Option String :=
  (attrib.find? (fun p => lowerStr p.1 == lowerStr name_lower)).map (fun p => p.1)

/-- One stat write of revert_upgrade (main.py): look up the target's
attribute key case-insensitively; a missing (or falsy) key is skipped,
otherwise the attribute is overwritten with the recorded value and one
change is counted. -/
def applyStat (stat_tag_lower v : String) (attrib : Attrs) : Attrs × Nat :=
  match find_attr_case_insensitive attrib stat_tag_lower with
  | none => (attrib, 0)
  | some k => if k == "" then (attrib, 0) else (dictSet attrib k v, 1)

/-- Apply one stat write to one sibling when its tag matches the
component-change tag (exact match, as in the source). -/
def patchSib (comp_tag stat_tag_lower v : String) (sib : XML) : XML × Nat :=
  if sib.tag == comp_tag then
    let r := applyStat stat_tag_lower v sib.attrs
    (sib.withAttrs r.1, r.2)
  else (sib, 0)

/-- Apply one stat write to every matching element of a sibling list,
returning the new list and the change count. -/
def patchAll (comp_tag stat_tag_lower v : String) (l : List XML) : List XML × Nat :=
  (l.map (fun s => (patchSib comp_tag stat_tag_lower v s).1),
   (l.map (fun s => (patchSib comp_tag stat_tag_lower v s).2)).sum)

/-- The "this" branch of revert_upgrade: the stat leaves are replayed onto
the parent's own attributes; a stat with no value attribute is skipped (the
source checks for None, so an empty value string is still applied). -/
def revertStatsThis (stats : List XML) (pAttrs : Attrs) : Attrs × Nat :=
  stats.foldl (fun acc stat =>
    match attrGet stat.attrs "value" with
    | none => acc
    | some v =>
      let r := applyStat (lowerStr stat.tag) v acc.1
      (r.1, acc.2 + r.2)) (pAttrs, 0)

/-- Reverter state: parent attributes, the parent's children split around
the upgrade element currently being processed (earlier siblings, the
upgrade itself, later siblings), and the change count.  The Python code
mutates the single live child list; the split is threaded so that the
recursion after the upgrade's removal is evident, and all edits distribute
over the concatenation done ++ upgrade :: rest. -/
abbrev RState := Attrs × List XML × XML × List XML × Nat

/-- One stat leaf of a tag-matching component change: patch every matching
element of the current child list (the upgrade element itself included,
matching the source's targets snapshot). -/
def revertCompStep (comp_tag : String) (acc : RState) (stat : XML) : RState :=
  match attrGet stat.attrs "value" with
  | none => acc
  | some v =>
    match acc with
    | (a, d, cu, re, n) =>
      let rd := patchAll comp_tag (lowerStr stat.tag) v d
      let rc := patchSib comp_tag (lowerStr stat.tag) v cu
      let rr := patchAll comp_tag (lowerStr stat.tag) v re
      (a, rd.1, rc.1, rr.1, n + rd.2 + rc.2 + rr.2)

/-- One component-change child of an upgrade (revert_upgrade's outer loop
body): a tag lowering to "this" targets the parent itself; otherwise the
targets are the parent's children whose tag equals the component-change
tag exactly, and an empty target set is skipped. -/
def revertComp (acc : RState) (comp : XML) : RState :=
  match acc with
  | (a, d, cu, re, n) =>
    if lowerStr comp.tag == "this" then
      let r := revertStatsThis comp.children a
      (r.1, d, cu, re, n + r.2)
    else if (d ++ cu :: re).any (fun c => c.tag == comp.tag) then
      match comp.children.foldl (revertCompStep comp.tag) (a, d, cu, re, 0) with
      | (a2, d2, cu2, re2, n2) => (a2, d2, cu2, re2, n + n2)
    else acc

/-- revert_upgrade (main.py), acting on the parent's attributes and its
child list split around the upgrade element; the caller removes the
upgrade element afterwards (the source removes it at the end of the
function). -/
def revert_upgrade (upgrade : XML) (pAttrs : Attrs) (done : List XML) (cur : XML)
    (rest : List XML) : RState :=
  upgrade.children.foldl revertComp (pAttrs, done, cur, rest, 0)

theorem foldl_inv {α β : Type} (P : α → Prop) (f : α → β → α) (l : List β) (init : α)
    (hstep : ∀ s x, P s → P (f s x)) (hinit : P init) : P (l.foldl f init) := by
  induction l generalizing init with
  | nil => exact hinit
  | cons x xs ih => exact ih _ (hstep _ _ hinit)

theorem xsize_withAttrs (x : XML) (a : Attrs) : xsize (x.withAttrs a) = xsize x := by
  cases x
  rfl

theorem xsize_patchSib (ct st v : String) (s : XML) : xsize (patchSib ct st v s).1 = xsize s := by
  unfold patchSib
  split
  · exact xsize_withAttrs _ _
  · rfl

theorem xsizego_patchAll (ct st v : String) (l : List XML) :
    xsize.go (patchAll ct st v l).1 = xsize.go l := by
  induction l with
  | nil => rfl
  | cons c cs ih =>
    simp only [patchAll, List.map_cons, xsize.go] at *
    rw [xsize_patchSib]
    omega

/-- Size invariant of the reverter: attribute edits leave the structural
size of each part of the child list unchanged. -/
def sizeOk (d : List XML) (cu : XML) (re : List XML) (s : RState) : Prop :=
  xsize.go s.2.1 = xsize.go d ∧ xsize s.2.2.1 = xsize cu ∧ xsize.go s.2.2.2.1 = xsize.go re

theorem revertCompStep_size (ct : String) (d : List XML) (cu : XML) (re : List XML)
    (s : RState) (stat : XML) (h : sizeOk d cu re s) : sizeOk d cu re (revertCompStep ct s stat) := by
  unfold revertCompStep
  cases attrGet stat.attrs "value" with
  | none => exact h
  | some v =>
    obtain ⟨a, d', cu', re', n⟩ := s
    obtain ⟨h1, h2, h3⟩ := h
    refine ⟨?_, ?_, ?_⟩ <;> simp only [sizeOk] at *
    · rw [xsizego_patchAll]
      exact h1
    · rw [xsize_patchSib]
      exact h2
    · rw [xsizego_patchAll]
      exact h3

theorem revertComp_size (d : List XML) (cu : XML) (re : List XML) (s : RState) (comp : XML)
    (h : sizeOk d cu re s) : sizeOk d cu re (revertComp s comp) := by
  obtain ⟨a, d', cu', re', n⟩ := s
  obtain ⟨h1, h2, h3⟩ := h
  by_cases hthis : lowerStr comp.tag = "this"
  · simp only [revertComp, beq_iff_eq, if_pos hthis]
    exact ⟨h1, h2, h3⟩
  · by_cases hany : ((d' ++ cu' :: re').any fun c => c.tag == comp.tag) = true
    · simp only [revertComp, beq_iff_eq, if_neg hthis, hany, if_true]
      have hf := foldl_inv (sizeOk d cu re) (revertCompStep comp.tag) comp.children
        (a, d', cu', re', 0) (fun s x hs => revertCompStep_size _ _ _ _ _ _ hs) ⟨h1, h2, h3⟩
      exact ⟨hf.1, hf.2.1, hf.2.2⟩
    · simp only [revertComp, beq_iff_eq, if_neg hthis, hany, if_false]
      exact ⟨h1, h2, h3⟩

theorem revert_upgrade_size (u : XML) (a : Attrs) (d : List XML) (cu : XML) (re : List XML) :
    sizeOk d cu re (revert_upgrade u a d cu re) := by
  unfold revert_upgrade
  exact foldl_inv (sizeOk d cu re) revertComp u.children (a, d, cu, re, 0)
    (fun s x hs => revertComp_size _ _ _ _ _ hs) ⟨rfl, rfl, rfl⟩

mutual
/-- process_upgrades (main.py), one node: the source walks all Upgrade
elements in document order and reverts each against its parent, then
removes it.  Reverts only touch the parent's attributes and its children's
attributes, so the global document-order walk is equivalent to this
recursive traversal: the children are processed left to right, an Upgrade
child is reverted against the evolving parent state and dropped, a
non-Upgrade child is recursed into (its own subtree's upgrades run before
later siblings, matching document order).  Upgrades nested inside removed
upgrade subtrees only mutate detached elements in the source, with no
effect on the resulting tree.  The source's returned change count (used
only for logging) is not modelled. -/
def processNode (x : XML) : XML :=
  match x with
  | .node t a cs =>
    let p := procChildren a [] cs
    .node t p.1 p.2
termination_by (xsize x, 0)
decreasing_by
  apply Prod.Lex.left
  simp [xsize]
/-- Child-list walk of process_upgrades: done is the processed prefix of
the parent's current child list, todo the unprocessed suffix; an upgrade
element sees and may patch both (its targets snapshot is the full current
child list, itself included), and is removed after its revert. -/
def procChildren (attrs : Attrs) (done : List XML) (todo : List XML) : Attrs × List XML :=
  match todo with
  | [] => (attrs, done)
  | c :: rest =>
    if c.tag == "Upgrade" then
      match hr : revert_upgrade c attrs done c rest with
      | (a2, d2, _, r2, _) => procChildren a2 d2 r2
    else
      procChildren attrs (done ++ [processNode c]) rest
termination_by (xsize.go todo, 1)
decreasing_by
  · have hs := revert_upgrade_size c attrs done c rest
    rw [hr] at hs
    simp only [sizeOk] at hs
    apply Prod.Lex.left
    have := xsize_pos c
    simp only [xsize.go]
    omega
  · apply Prod.Lex.right'
    · simp only [xsize.go]
      omega
    · omega
  · apply Prod.Lex.left
    simp only [xsize.go]
    have := xsize_pos c
    omega
end

/-- process_upgrades (main.py): revert and remove every Upgrade element
(tag matched exactly) that has a parent; a root-level Upgrade has no
parent and is skipped, which the traversal realizes by never removing the
root. -/
def process_upgrades (t : XML) : XML := processNode t

/-- The type test of remove_extra_stacksize_stats (main.py): the type
attribute read as "type" or-else "Type" (Python or: first truthy), then
required truthy with lower-casing equal to "extrastacksize". -/
def stacksize_hit (stat : XML) : Bool :=
  let t := if truthy (attrGet stat.attrs "type") then attrGet stat.attrs "type"
           else attrGet stat.attrs "Type"
  truthy t && (lowerStr (t.getD "") == "extrastacksize")

/-- Tree effect of remove_extra_stacksize_stats: every Stat child (exact
tag) hitting the type test is detached from its parent, at every level.
The source iterates a precomputed list against a precomputed parent map,
so nodes inside removed subtrees are "removed" from already-detached
parents, which this recursion realizes by dropping whole subtrees. -/
def remove_stack_pass : XML → XML
  | .node t a cs => .node t a (go cs)
where go : List XML → List XML
  | [] => []
  | c :: rest =>
    (if c.tag == "Stat" && stacksize_hit c then [] else [remove_stack_pass c]) ++ go rest

/-- remove_extra_stacksize_stats (main.py): returns the new tree and the
number of removed Stat nodes.  Every hit with a parent is counted, nested
hits inside removed subtrees included (the source removes them from
detached parents and still counts); the hits with a parent are exactly the
hits among the proper descendants. -/
def remove_extra_stacksize_stats (root : XML) : XML × Nat :=
  (remove_stack_pass root,
   ((properDescendants root).filter (fun c => c.tag == "Stat" && stacksize_hit c)).length)

abbrev C2C := List (String × List String)
abbrev CH2C := List (String × List (Option String))

/-- Per-ItemContainer step of build_maps_for_items (main.py): ids are the
digit runs of the contained attribute (default empty); when none, skip;
the forward map gains the ids under the owning item's id only when that id
is truthy, the reverse map gains the owning item's raw id (possibly None
or empty) under every contained id. -/
def registerIC (itemId : Option String) (maps : C2C × CH2C) (ic : XML) : C2C × CH2C :=
  let ids := extract_ids_from_contained ((attrGet ic.attrs "contained").getD "")
  if ids == [] then maps
  else
    let c2c := if truthy itemId then
        dictSet maps.1 (itemId.getD "") (setAddAll ((dictGet maps.1 (itemId.getD "")).getD []) ids)
      else maps.1
    let ch2c := ids.foldl
      (fun m cid => dictSet m cid (setAddAll ((dictGet m cid).getD []) [itemId])) maps.2
    (c2c, ch2c)

/-- build_maps_for_items (main.py): walk all Item elements in document
order; id_to_item maps truthy ids to their (last-seen) element, the two
adjacency maps are accumulated from each item's direct ItemContainer
children.  The parent map the source also returns is realized implicitly
by the recursive deletion pass. -/
def build_maps_for_items (root : XML) : List (String × XML) × C2C × CH2C :=
  (iterTag "Item" root).foldl
    (fun acc item =>
      let itemId := attrGet item.attrs "ID"
      let idm := if truthy itemId then dictSet acc.1 (itemId.getD "") item else acc.1
      let maps := (findallTag "ItemContainer" item).foldl (registerIC itemId) (acc.2.1, acc.2.2)
      (idm, maps.1, maps.2)) ([], [], [])

abbrev Os := Option String

/-- Seed pass of build_safe_ids (main.py): every id_to_item entry whose
lower-cased identifier attribute (or-else empty) is in the exclusion set
is added to the safe set and pushed on the worklist.  The worklist is
oriented with its head as the most recently pushed element, matching
queue.append/queue.pop of the source. -/
def seedStep (excl : List String) (acc : List Os × List Os) (p : String × XML) :
    List Os × List Os :=
  if excl.contains (lowerStr ((attrGet p.2.attrs "identifier").getD "")) then
    ((if acc.1.contains (some p.1) then acc.1 else acc.1 ++ [some p.1]), some p.1 :: acc.2)
  else acc

def build_safe_seeds (id_to_item : List (String × XML)) (excl : List String) :
    List Os × List Os :=
  id_to_item.foldl (seedStep excl) ([], [])

/-- Forward neighbours: container_to_children.get(current, ()) of the
source; the dictionary is keyed by strings, so a None current finds
nothing. -/
def childNbrs (c2c : C2C) : Os → List Os
  | some s => ((dictGet c2c s).getD []).map some
  | none => []

/-- Backward neighbours: child_to_containers.get(current, ()) of the
source; the stored values are the raw owning ids (Options). -/
def parNbrs (ch2c : CH2C) : Os → List Os
  | some s => (dictGet ch2c s).getD []
  | none => []

/-- Both neighbour lists of one worklist iteration; the source runs the
children loop then the parents loop, i.e. one fold over the
concatenation. -/
def nbrsOf (c2c : C2C) (ch2c : CH2C) (cur : Os) : List Os :=
  childNbrs c2c cur ++ parNbrs ch2c cur

/-- One neighbour visit of build_safe_ids: an id not yet safe is added to
the safe set and pushed on the worklist. -/
def bfsStep (p : List Os × List Os) (y : Os) : List Os × List Os :=
  if p.1.contains y then p else (p.1 ++ [y], y :: p.2)

/-- All values stored in the two adjacency maps: every neighbour the
worklist can ever add lies in this list, which bounds the loop. -/
def valsU (c2c : C2C) (ch2c : CH2C) : List Os :=
  (c2c.map (fun p => p.2)).flatten.map some ++ (ch2c.map (fun p => p.2)).flatten

/-- The while-loop of build_safe_ids, structurally recursive on a fuel
bound.  The fuel never runs out when it is at least the loop measure
(values not yet safe plus queue length): each iteration pops one element
and every insertion trades one unsafe value for one queue entry, so the
measure strictly decreases (the stability theorems below make this
exact). -/
def bfsLoopF (c2c : C2C) (ch2c : CH2C) : Nat → List Os → List Os → List Os
  | 0, safe, _ => safe
  | _ + 1, safe, [] => safe
  | n + 1, safe, cur :: q =>
    let p := (nbrsOf c2c ch2c cur).foldl bfsStep (safe, q)
    bfsLoopF c2c ch2c n p.1 p.2

/-- Loop measure of build_safe_ids: map values not yet safe, plus the
worklist length. -/
def bfs_measure (c2c : C2C) (ch2c : CH2C) (safe queue : List Os) : Nat :=
  ((valsU c2c ch2c).filter (fun v => !safe.contains v)).length + queue.length

/-- Fuel that provably dominates the loop measure from the start. -/
def bfs_fuel (c2c : C2C) (ch2c : CH2C) (queue : List Os) : Nat :=
  (valsU c2c ch2c).length + queue.length

/-- build_safe_ids (main.py): seed from the exclusion set, then the
bidirectional worklist closure over the containment maps. -/
def build_safe_ids (id_to_item : List (String × XML)) (container_to_children : C2C)
    (child_to_containers : CH2C) (exclude_identifiers : List String) : List Os :=
  let seeds := build_safe_seeds id_to_item exclude_identifiers
  bfsLoopF container_to_children child_to_containers
    (bfs_fuel container_to_children child_to_containers seeds.2) seeds.1 seeds.2

/-- collect_link_w_ids (main.py): the w attributes of all link elements
that are truthy and are keys of id_to_item. -/
def linkStep (id_to_item : List (String × XML)) (acc : List String) (link : XML) : List String :=
  match attrGet link.attrs "w" with
  | none => acc
  | some w =>
    if w == "" then acc
    else if id_to_item.any (fun p => p.1 == w) then
      (if acc.contains w then acc else acc ++ [w])
    else acc

def collect_link_w_ids (root : XML) (id_to_item : List (String × XML)) : List String :=
  (iterTag "link" root).foldl (linkStep id_to_item) []

/-- TARGET_TAGS (main.py). -/
def TARGET_TAGS : List String :=
  ["smallitem", "mediumitem", "ammobox", "railgunammo", "human",
   "mobilecontainer", "depthchargeammo", "crate"]

/-- BEHAVIOR_COMPONENT_TAGS (main.py). -/
def BEHAVIOR_COMPONENT_TAGS : List String :=
  ["Holdable", "Throwable", "Growable", "Pickable", "MeleeWeapon", "Wearable"]

/-- has_behavior_component (main.py): elem.find of each behaviour tag in
turn, exact tag match on direct children. -/
def has_behavior_component (item : XML) : Bool :=
  BEHAVIOR_COMPONENT_TAGS.any (fun t => (item.children.find? (fun c => c.tag == t)).isSome)

/-- item_is_deletable (main.py): requires a truthy ID not in the safe set,
a Tags/tags token intersecting TARGET_TAGS, and no Holdable child whose
Attached attribute is present with lower-casing "true". -/
def item_is_deletable (item : XML) (safe_ids : List Os) : Bool :=
  match attrGet item.attrs "ID" with
  | none => false
  | some iid =>
    if iid == "" then false
    else if safe_ids.contains (some iid) then false
    else
      let raw_tags :=
        if truthy (attrGet item.attrs "Tags") then (attrGet item.attrs "Tags").getD ""
        else if truthy (attrGet item.attrs "tags") then (attrGet item.attrs "tags").getD ""
        else ""
      if !((tag_tokens raw_tags).any (fun t => TARGET_TAGS.contains t)) then false
      else if (findallTag "Holdable" item).any (fun h =>
          match attrGet h.attrs "Attached" with
          | none => false
          | some att => lowerStr att == "true") then false
      else true

/-- Deletion predicate of the pruning loop in delete_tagged_items: only
Item elements are iterated, and only deletable ones are detached. -/
def item_deletable_node (c : XML) (safe : List Os) : Bool :=
  c.tag == "Item" && item_is_deletable c safe

/-- The pruning loop of delete_tagged_items (main.py): every deletable
Item with a parent is detached from it.  The source iterates a precomputed
item list against a precomputed parent map; deletable items inside already
removed subtrees are detached from detached parents, which this recursion
realizes by dropping whole subtrees; the root is never removed (it has no
parent). -/
def delete_pass (safe : List Os) : XML → XML
  | .node t a cs => .node t a (go cs)
where go : List XML → List XML
  | [] => []
  | c :: rest =>
    (if item_deletable_node c safe then [] else [delete_pass safe c]) ++ go rest

/-- The deleted-id set of delete_tagged_items: ids of all deletable Item
elements that have a parent, i.e. the deletable Items among the proper
descendants (nested deletable items are removed from detached parents and
still recorded by the source). -/
def collectIdStep (acc : List String) (c : XML) : List String :=
  match attrGet c.attrs "ID" with
  | some iid => if acc.contains iid then acc else acc ++ [iid]
  | none => acc

def deleted_item_ids (root : XML) (safe : List Os) : List String :=
  ((properDescendants root).filter (fun c => item_deletable_node c safe)).foldl
    collectIdStep []

/-- The per-ItemContainer rewrite of delete_tagged_items: a falsy
contained attribute is skipped, otherwise it is overwritten with the
deleted ids removed. -/
def rewriteIC (deleted : List String) (ic : XML) : XML :=
  if truthy (attrGet ic.attrs "contained") then
    ic.withAttrs (dictSet ic.attrs "contained"
      (remove_deleted_ids_from_contained ((attrGet ic.attrs "contained").getD "") deleted))
  else ic

/-- The contained-rewrite loop of delete_tagged_items: every ItemContainer
child of every Item element (at any depth, whatever the item's id status)
is rewritten.  Attribute rewriting and recursion into the child commute,
since the rewrite only touches attributes. -/
def rewrite_pass (deleted : List String) : XML → XML
  | .node t a cs => .node t a (go t cs)
where go : String → List XML → List XML
  | _, [] => []
  | t, c :: rest =>
    (let cr := rewrite_pass deleted c
     if t == "Item" && cr.tag == "ItemContainer" then rewriteIC deleted cr else cr) :: go t rest

/-- The final safe set of delete_tagged_items (main.py): the exclusion
closure, plus the link-referenced ids, plus the ids of items with no
behaviour component that are not already safe. -/
def staticStep (s : List Os) (p : String × XML) : List Os :=
  if s.contains (some p.1) then s
  else if has_behavior_component p.2 then s
  else s ++ [some p.1]

def safe_ids_final (root : XML) (excl : List String) : List Os :=
  let m := build_maps_for_items root
  let safe0 := build_safe_ids m.1 m.2.1 m.2.2 excl
  let safe1 := setAddAll safe0 ((collect_link_w_ids root m.1).map some)
  m.1.foldl staticStep safe1

/-- delete_tagged_items (main.py): compute the final safe set, detach the
deletable items, and when anything was deleted rewrite every contained
attribute; returns the new tree and the deleted-id set (the source
returns its size). -/
def delete_tagged_items (root : XML) (exclude_identifiers : List String) : XML × List String :=
  let safe := safe_ids_final root exclude_identifiers
  let del := deleted_item_ids root safe
  let t1 := delete_pass safe root
  (if del == [] then t1 else rewrite_pass del t1, del)

/-- The tree-transforming core of process_sub_file (main.py): upgrade
stripping (reversion then ExtraStackSize removal) when enabled, then item
stripping when enabled. -/
def process_tree (strip_items : Bool) (exclude_identifiers : List String)
    (strip_upgrades : Bool) (t : XML) : XML :=
  let t1 := if strip_upgrades then (remove_extra_stacksize_stats (process_upgrades t)).1 else t
  if strip_items then (delete_tagged_items t1 exclude_identifiers).1 else t1

abbrev SQ := List Os × List Os

theorem bfsStep_grow (p : SQ) (y z : Os) (h : z ∈ p.1) : z ∈ (bfsStep p y).1 := by
  unfold bfsStep
  split
  · exact h
  · simp [h]

theorem stepFold_grow (ys : List Os) (p : SQ) (z : Os) (h : z ∈ p.1) :
    z ∈ (ys.foldl bfsStep p).1 := by
  induction ys generalizing p with
  | nil => exact h
  | cons y ys ih => exact ih _ (bfsStep_grow _ _ _ h)

theorem bfsStep_new (p : SQ) (y z : Os) (h : z ∈ (bfsStep p y).1) : z ∈ p.1 ∨ z = y := by
  unfold bfsStep at h
  split at h
  · exact Or.inl h
  · rcases List.mem_append.mp h with h | h
    · exact Or.inl h
    · exact Or.inr (List.mem_singleton.mp h)

theorem stepFold_new (ys : List Os) (p : SQ) (z : Os) (h : z ∈ (ys.foldl bfsStep p).1) :
    z ∈ p.1 ∨ z ∈ ys := by
  induction ys generalizing p with
  | nil => exact Or.inl h
  | cons y ys ih =>
    rcases ih _ h with h2 | h2
    · rcases bfsStep_new _ _ _ h2 with h3 | h3
      · exact Or.inl h3
      · exact Or.inr (h3 ▸ List.mem_cons_self _ _)
    · exact Or.inr (List.mem_cons_of_mem _ h2)

theorem bfsStep_covers (p : SQ) (y : Os) : y ∈ (bfsStep p y).1 := by
  unfold bfsStep
  split
  · exact List.elem_iff.mp (by assumption)
  · simp

theorem stepFold_covers (ys : List Os) (p : SQ) (y : Os) (h : y ∈ ys) :
    y ∈ (ys.foldl bfsStep p).1 := by
  induction ys generalizing p with
  | nil => cases h
  | cons a as ih =>
    rcases List.mem_cons.mp h with h2 | h2
    · subst h2
      exact stepFold_grow as (bfsStep p y) y (bfsStep_covers p y)
    · exact ih _ h2

theorem bfsStep_qmono (p : SQ) (y z : Os) (h : z ∈ p.2) : z ∈ (bfsStep p y).2 := by
  unfold bfsStep
  split
  · exact h
  · exact List.mem_cons_of_mem _ h

theorem stepFold_qmono (ys : List Os) (p : SQ) (z : Os) (h : z ∈ p.2) :
    z ∈ (ys.foldl bfsStep p).2 := by
  induction ys generalizing p with
  | nil => exact h
  | cons y ys ih => exact ih _ (bfsStep_qmono _ _ _ h)

theorem bfsStep_qsub (p : SQ) (y : Os) (h : ∀ z ∈ p.2, z ∈ p.1) :
    ∀ z ∈ (bfsStep p y).2, z ∈ (bfsStep p y).1 := by
  intro z hz
  unfold bfsStep at *
  split at hz
  · rename_i hc
    rw [if_pos hc]
    exact h z hz
  · rename_i hc
    rw [if_neg hc] at *
    rcases List.mem_cons.mp hz with h2 | h2
    · simp [h2]
    · exact List.mem_append_left _ (h z h2)

theorem stepFold_qsub (ys : List Os) (p : SQ) (h : ∀ z ∈ p.2, z ∈ p.1) :
    ∀ z ∈ (ys.foldl bfsStep p).2, z ∈ (ys.foldl bfsStep p).1 := by
  induction ys generalizing p with
  | nil => exact h
  | cons y ys ih => exact ih _ (bfsStep_qsub _ _ h)

theorem bfsStep_q_new (p : SQ) (y z : Os) (h : z ∈ (bfsStep p y).1) :
    z ∈ p.1 ∨ z ∈ (bfsStep p y).2 := by
  unfold bfsStep at *
  split at h
  · exact Or.inl h
  · rcases List.mem_append.mp h with h2 | h2
    · exact Or.inl h2
    · rename_i hc
      rw [if_neg hc]
      have : z = y := List.mem_singleton.mp h2
      exact Or.inr (this ▸ List.mem_cons_self _ _)

theorem stepFold_q_new (ys : List Os) (p : SQ) (z : Os) (h : z ∈ (ys.foldl bfsStep p).1) :
    z ∈ p.1 ∨ z ∈ (ys.foldl bfsStep p).2 := by
  induction ys generalizing p with
  | nil => exact Or.inl h
  | cons y ys ih =>
    rcases ih _ h with h2 | h2
    · rcases bfsStep_q_new _ _ _ h2 with h3 | h3
      · exact Or.inl h3
      · exact Or.inr (stepFold_qmono ys (bfsStep p y) z h3)
    · exact Or.inr h2

def sqMeasure (U : List Os) (p : SQ) : Nat :=
  (U.filter (fun v => !p.1.contains v)).length + p.2.length

theorem filter_mono_length {α : Type} (l : List α) (f g : α → Bool)
    (h : ∀ v, f v = true → g v = true) : (l.filter f).length ≤ (l.filter g).length := by
  induction l with
  | nil => simp
  | cons a as ih =>
    by_cases ha : f a = true
    · simp [List.filter_cons, ha, h a ha]
      omega
    · simp only [List.filter_cons]
      rw [if_neg (by simp [ha])]
      split
      · simp
        omega
      · exact ih

theorem filter_strict_length {α : Type} (l : List α) (f g : α → Bool) (y : α)
    (h : ∀ v, f v = true → g v = true) (hy : y ∈ l) (hgy : g y = true) (hfy : f y = false) :
    (l.filter f).length + 1 ≤ (l.filter g).length := by
  induction l with
  | nil => cases hy
  | cons a as ih =>
    rcases List.mem_cons.mp hy with h2 | h2
    · subst h2
      simp only [List.filter_cons, hgy, if_pos]
      rw [if_neg (by simp [hfy])]
      have := filter_mono_length as f g h
      simp only [List.length_cons]
      omega
    · by_cases ha : f a = true
      · simp only [List.filter_cons, ha, h a ha, if_pos, List.length_cons]
        have := ih h2
        omega
      · rw [List.filter_cons, if_neg (by simp [ha]), List.filter_cons]
        split
        · have := ih h2
          simp only [List.length_cons]
          omega
        · exact ih h2

theorem bfsStep_meas (U : List Os) (p : SQ) (y : Os) (hy : y ∈ U) :
    sqMeasure U (bfsStep p y) ≤ sqMeasure U p := by
  unfold bfsStep
  split
  · exact le_refl _
  · rename_i hc
    unfold sqMeasure
    simp only [List.length_cons]
    have hstrict := filter_strict_length U (fun v => !(p.1 ++ [y]).contains v)
      (fun v => !p.1.contains v) y ?_ hy ?_ ?_
    · omega
    · intro v hv
      simp only [] at hv
      by_cases hvm : v ∈ p.1
      · exfalso
        have h1 : (p.1 ++ [y]).contains v = true := List.elem_iff.mpr (List.mem_append_left _ hvm)
        rw [h1] at hv
        simp at hv
      · have h2 : p.1.contains v = false := by
          rcases h3 : p.1.contains v
          · rfl
          · exact absurd (List.elem_iff.mp h3) hvm
        simp only [h2]
        rfl
    · have h2 : p.1.contains y = false := Bool.eq_false_iff.mpr hc
      simp only [h2]
      rfl
    · have h1 : (p.1 ++ [y]).contains y = true := List.elem_iff.mpr (by simp)
      simp [h1]

theorem stepFold_meas (U : List Os) (ys : List Os) (p : SQ) (hys : ∀ y ∈ ys, y ∈ U) :
    sqMeasure U (ys.foldl bfsStep p) ≤ sqMeasure U p := by
  induction ys generalizing p with
  | nil => exact le_refl _
  | cons y ys ih =>
    calc sqMeasure U ((y :: ys).foldl bfsStep p) ≤ sqMeasure U (bfsStep p y) :=
          ih _ (fun a ha => hys a (List.mem_cons_of_mem _ ha))
      _ ≤ sqMeasure U p := bfsStep_meas U p y (hys y (List.mem_cons_self _ _))

theorem dictGet_mem {β : Type} (m : List (String × β)) (k : String) (v : β)
    (h : dictGet m k = some v) : v ∈ m.map (fun p => p.2) := by
  unfold dictGet at h
  cases hf : m.find? (fun p => p.1 == k) with
  | none => rw [hf] at h; cases h
  | some pr =>
    rw [hf] at h
    have hv : pr.2 = v := by simpa using h
    have hm := List.mem_of_find?_eq_some hf
    rw [← hv]
    exact List.mem_map.mpr ⟨pr, hm, rfl⟩

theorem nbrs_sub_valsU (c2c : C2C) (ch2c : CH2C) (cur y : Os) (h : y ∈ nbrsOf c2c ch2c cur) :
    y ∈ valsU c2c ch2c := by
  unfold nbrsOf valsU at *
  rcases List.mem_append.mp h with h2 | h2
  · apply List.mem_append_left
    cases cur with
    | none => cases h2
    | some s =>
      unfold childNbrs at h2
      rcases List.mem_map.mp h2 with ⟨y', hy', rfl⟩
      apply List.mem_map.mpr
      refine ⟨y', ?_, rfl⟩
      cases hg : dictGet c2c s with
      | none => rw [hg] at hy'; cases hy'
      | some vs =>
        rw [hg] at hy'
        simp only [Option.getD_some] at hy'
        exact List.mem_flatten.mpr ⟨vs, dictGet_mem _ _ _ hg, hy'⟩
  · apply List.mem_append_right
    cases cur with
    | none => cases h2
    | some s =>
      simp only [parNbrs] at h2
      cases hg : dictGet ch2c s with
      | none => rw [hg] at h2; cases h2
      | some vs =>
        rw [hg] at h2
        simp only [Option.getD_some] at h2
        exact List.mem_flatten.mpr ⟨vs, dictGet_mem _ _ _ hg, h2⟩

def bfsRel (c2c : C2C) (ch2c : CH2C) (x y : Os) : Prop := y ∈ nbrsOf c2c ch2c x

theorem bfsLoopF_grow (c2c : C2C) (ch2c : CH2C) (fuel : Nat) (safe q : List Os) (z : Os)
    (h : z ∈ safe) : z ∈ bfsLoopF c2c ch2c fuel safe q := by
  induction fuel generalizing safe q with
  | zero => exact h
  | succ n ih =>
    cases q with
    | nil => exact h
    | cons cur q2 => exact ih _ _ (stepFold_grow _ _ _ h)

theorem bfsLoopF_sound (c2c : C2C) (ch2c : CH2C) (fuel : Nat) (safe q : List Os)
    (hq : ∀ x ∈ q, x ∈ safe) (z : Os) (hz : z ∈ bfsLoopF c2c ch2c fuel safe q) :
    ∃ s ∈ safe, Relation.ReflTransGen (bfsRel c2c ch2c) s z := by
  induction fuel generalizing safe q with
  | zero => exact ⟨z, hz, Relation.ReflTransGen.refl⟩
  | succ n ih =>
    cases q with
    | nil => exact ⟨z, hz, Relation.ReflTransGen.refl⟩
    | cons cur q2 =>
      have hq2 : ∀ x ∈ ((nbrsOf c2c ch2c cur).foldl bfsStep (safe, q2)).2,
          x ∈ ((nbrsOf c2c ch2c cur).foldl bfsStep (safe, q2)).1 :=
        stepFold_qsub _ _ (fun x hx => hq x (List.mem_cons_of_mem _ hx))
      obtain ⟨s, hs, hrtg⟩ := ih _ _ hq2 hz
      rcases stepFold_new _ _ _ hs with h2 | h2
      · exact ⟨s, h2, hrtg⟩
      · refine ⟨cur, hq cur (List.mem_cons_self _ _), ?_⟩
        exact Relation.ReflTransGen.head h2 hrtg

theorem bfsLoopF_closed (c2c : C2C) (ch2c : CH2C) (fuel : Nat) (safe q : List Os)
    (hm : bfs_measure c2c ch2c safe q ≤ fuel)
    (hinv : ∀ x ∈ safe, x ∈ q ∨ ∀ y ∈ nbrsOf c2c ch2c x, y ∈ safe) :
    ∀ z ∈ bfsLoopF c2c ch2c fuel safe q, ∀ y ∈ nbrsOf c2c ch2c z,
      y ∈ bfsLoopF c2c ch2c fuel safe q := by
  induction fuel generalizing safe q with
  | zero =>
    intro z hz y hy
    have hq : q = [] := by
      unfold bfs_measure at hm
      cases q
      · rfl
      · simp at hm
    subst hq
    rcases hinv z hz with h2 | h2
    · cases h2
    · exact h2 y hy
  | succ n ih =>
    cases q with
    | nil =>
      intro z hz y hy
      rcases hinv z hz with h2 | h2
      · cases h2
      · exact h2 y hy
    | cons cur q2 =>
      set p := (nbrsOf c2c ch2c cur).foldl bfsStep (safe, q2) with hp
      have hm2 : bfs_measure c2c ch2c p.1 p.2 ≤ n := by
        have hf := stepFold_meas (valsU c2c ch2c) (nbrsOf c2c ch2c cur) (safe, q2)
          (fun y hy => nbrs_sub_valsU _ _ _ _ hy)
        have hf2 : ((valsU c2c ch2c).filter (fun v => !p.1.contains v)).length + p.2.length ≤
            ((valsU c2c ch2c).filter (fun v => !safe.contains v)).length + q2.length := hf
        unfold bfs_measure at *
        simp only [List.length_cons] at hm
        omega
      have hinv2 : ∀ x ∈ p.1, x ∈ p.2 ∨ ∀ y ∈ nbrsOf c2c ch2c x, y ∈ p.1 := by
        intro x hx
        by_cases hxs : x ∈ safe
        · rcases hinv x hxs with h2 | h2
          · rcases List.mem_cons.mp h2 with h3 | h3
            · subst h3
              exact Or.inr (fun y hy => stepFold_covers _ _ _ hy)
            · exact Or.inl (stepFold_qmono _ _ _ h3)
          · exact Or.inr (fun y hy => stepFold_grow _ _ _ (h2 y hy))
        · rcases stepFold_q_new _ _ _ hx with h2 | h2
          · exact absurd h2 hxs
          · exact Or.inl h2
      exact ih _ _ hm2 hinv2

theorem bfsLoopF_stable (c2c : C2C) (ch2c : CH2C) (fuel : Nat) (safe q : List Os)
    (hm : bfs_measure c2c ch2c safe q ≤ fuel) :
    bfsLoopF c2c ch2c (fuel + 1) safe q = bfsLoopF c2c ch2c fuel safe q := by
  induction fuel generalizing safe q with
  | zero =>
    have hq : q = [] := by
      unfold bfs_measure at hm
      cases q
      · rfl
      · simp at hm
    subst hq
    rfl
  | succ n ih =>
    cases q with
    | nil => rfl
    | cons cur q2 =>
      show bfsLoopF c2c ch2c (n + 1 + 1) safe (cur :: q2) = _
      have hstep : ∀ m : Nat, bfsLoopF c2c ch2c (m + 1) safe (cur :: q2) =
          bfsLoopF c2c ch2c m ((nbrsOf c2c ch2c cur).foldl bfsStep (safe, q2)).1
            ((nbrsOf c2c ch2c cur).foldl bfsStep (safe, q2)).2 := fun m => rfl
      rw [hstep, hstep]
      apply ih
      have hf := stepFold_meas (valsU c2c ch2c) (nbrsOf c2c ch2c cur) (safe, q2)
        (fun y hy => nbrs_sub_valsU _ _ _ _ hy)
      have hf2 : ((valsU c2c ch2c).filter
            (fun v => !((nbrsOf c2c ch2c cur).foldl bfsStep (safe, q2)).1.contains v)).length +
            ((nbrsOf c2c ch2c cur).foldl bfsStep (safe, q2)).2.length ≤
          ((valsU c2c ch2c).filter (fun v => !safe.contains v)).length + q2.length := hf
      unfold bfs_measure at *
      simp only [List.length_cons] at hm
      omega

theorem bfsLoopF_add (c2c : C2C) (ch2c : CH2C) (fuel k : Nat) (safe q : List Os)
    (hm : bfs_measure c2c ch2c safe q ≤ fuel) :
    bfsLoopF c2c ch2c (fuel + k) safe q = bfsLoopF c2c ch2c fuel safe q := by
  induction k with
  | zero => rfl
  | succ n ih =>
    have : fuel + (n + 1) = (fuel + n) + 1 := rfl
    rw [this, bfsLoopF_stable c2c ch2c (fuel + n) safe q (le_trans hm (Nat.le_add_right _ _))]
    exact ih

theorem seedStep_mem_iff (e : List String) (acc : List Os × List Os) (p : String × XML)
    (h : ∀ x, x ∈ acc.2 ↔ x ∈ acc.1) :
    ∀ x, x ∈ (seedStep e acc p).2 ↔ x ∈ (seedStep e acc p).1 := by
  intro x
  unfold seedStep
  split
  · simp only []
    constructor
    · intro hx
      rcases List.mem_cons.mp hx with h2 | h2
      · subst h2
        split
        · exact List.elem_iff.mp (by assumption)
        · simp
      · have := (h x).mp h2
        split
        · exact this
        · exact List.mem_append_left _ this
    · intro hx
      split at hx
      · exact List.mem_cons_of_mem _ ((h x).mpr hx)
      · rcases List.mem_append.mp hx with h2 | h2
        · exact List.mem_cons_of_mem _ ((h x).mpr h2)
        · exact (List.mem_singleton.mp h2) ▸ List.mem_cons_self _ _
  · exact h x

theorem build_safe_seeds_queue_iff (l : List (String × XML)) (e : List String) :
    ∀ x, x ∈ (build_safe_seeds l e).2 ↔ x ∈ (build_safe_seeds l e).1 := by
  unfold build_safe_seeds
  generalize hacc : (([], []) : List Os × List Os) = acc
  have hbase : ∀ x, x ∈ acc.2 ↔ x ∈ acc.1 := by
    subst hacc
    simp
  clear hacc
  induction l generalizing acc with
  | nil => exact hbase
  | cons p ps ih => exact ih _ (seedStep_mem_iff e acc p hbase)

/-- Seed condition of build_safe_ids: the entry's lower-cased identifier
attribute (empty when absent) is in the exclusion set. -/
def isSeedEntry (e : List String) (p : String × XML) : Prop :=
  lowerStr ((attrGet p.2.attrs "identifier").getD "") ∈ e

instance (e : List String) (p : String × XML) : Decidable (isSeedEntry e p) := by
  unfold isSeedEntry
  infer_instance

theorem seedStep_mem_char (e : List String) (acc : List Os × List Os) (p : String × XML) (x : Os) :
    x ∈ (seedStep e acc p).1 ↔ x ∈ acc.1 ∨ (x = some p.1 ∧ isSeedEntry e p) := by
  unfold seedStep isSeedEntry
  split
  · rename_i hc
    simp only []
    split
    · rename_i hc2
      constructor
      · intro hx
        exact Or.inl hx
      · rintro (hx | ⟨hx, _⟩)
        · exact hx
        · exact hx ▸ List.elem_iff.mp hc2
    · constructor
      · intro hx
        rcases List.mem_append.mp hx with h2 | h2
        · exact Or.inl h2
        · exact Or.inr ⟨List.mem_singleton.mp h2, List.elem_iff.mp hc⟩
      · rintro (hx | ⟨hx, _⟩)
        · exact List.mem_append_left _ hx
        · simp [hx]
  · rename_i hc
    constructor
    · exact Or.inl
    · rintro (hx | ⟨hx, hseed⟩)
      · exact hx
      · exact absurd (List.elem_iff.mpr hseed) hc

theorem foldl_seed_mem (e : List String) (l : List (String × XML))
    (acc : List Os × List Os) (x : Os) :
    x ∈ (l.foldl (seedStep e) acc).1 ↔ x ∈ acc.1 ∨ ∃ p ∈ l, x = some p.1 ∧ isSeedEntry e p := by
  induction l generalizing acc with
  | nil => simp
  | cons p ps ih =>
    rw [List.foldl_cons, ih]
    rw [seedStep_mem_char]
    constructor
    · rintro ((hx | hx) | ⟨q, hq, hxq⟩)
      · exact Or.inl hx
      · exact Or.inr ⟨p, List.mem_cons_self _ _, hx⟩
      · exact Or.inr ⟨q, List.mem_cons_of_mem _ hq, hxq⟩
    · rintro (hx | ⟨q, hq, hxq⟩)
      · exact Or.inl (Or.inl hx)
      · rcases List.mem_cons.mp hq with h2 | h2
        · exact Or.inl (Or.inr (h2 ▸ hxq))
        · exact Or.inr ⟨q, h2, hxq⟩

theorem build_safe_seeds_mem (l : List (String × XML)) (e : List String) (x : Os) :
    x ∈ (build_safe_seeds l e).1 ↔ ∃ p ∈ l, x = some p.1 ∧ isSeedEntry e p := by
  unfold build_safe_seeds
  rw [foldl_seed_mem]
  simp

theorem measure_le_fuel (c2c : C2C) (ch2c : CH2C) (safe q : List Os) :
    bfs_measure c2c ch2c safe q ≤ bfs_fuel c2c ch2c q := by
  unfold bfs_measure bfs_fuel
  have := List.length_filter_le (fun v => !safe.contains v) (valsU c2c ch2c)
  omega

theorem mem_build_safe_ids (idToItem : List (String × XML)) (c2c : C2C) (ch2c : CH2C)
    (excl : List String) (z : Os) :
    z ∈ build_safe_ids idToItem c2c ch2c excl ↔
      ∃ s ∈ (build_safe_seeds idToItem excl).1, Relation.ReflTransGen (bfsRel c2c ch2c) s z := by
  unfold build_safe_ids
  constructor
  · intro hz
    exact bfsLoopF_sound _ _ _ _ _ (fun x hx => (build_safe_seeds_queue_iff _ _ x).mp hx) z hz
  · rintro ⟨s, hs, hrtg⟩
    induction hrtg with
    | refl => exact bfsLoopF_grow _ _ _ _ _ _ hs
    | tail h1 h2 ih =>
      exact bfsLoopF_closed _ _ _ _ _ (measure_le_fuel _ _ _ _)
        (fun x hx => Or.inl ((build_safe_seeds_queue_iff _ _ x).mpr hx)) _ ih _ h2

theorem build_safe_ids_closed (idToItem : List (String × XML)) (c2c : C2C) (ch2c : CH2C)
    (excl : List String) (z y : Os) (hz : z ∈ build_safe_ids idToItem c2c ch2c excl)
    (hy : y ∈ nbrsOf c2c ch2c z) : y ∈ build_safe_ids idToItem c2c ch2c excl := by
  unfold build_safe_ids at *
  exact bfsLoopF_closed _ _ _ _ _ (measure_le_fuel _ _ _ _)
    (fun x hx => Or.inl ((build_safe_seeds_queue_iff _ _ x).mpr hx)) z hz y hy

theorem build_safe_ids_superset (idToItem : List (String × XML)) (c2c : C2C) (ch2c : CH2C)
    (excl : List String) (z : Os) (hz : z ∈ (build_safe_seeds idToItem excl).1) :
    z ∈ build_safe_ids idToItem c2c ch2c excl :=
  bfsLoopF_grow _ _ _ _ _ _ hz

theorem build_safe_ids_mono (idToItem : List (String × XML)) (c2c : C2C) (ch2c : CH2C)
    (excl excl' : List String) (h : ∀ s ∈ excl, s ∈ excl') (z : Os)
    (hz : z ∈ build_safe_ids idToItem c2c ch2c excl) :
    z ∈ build_safe_ids idToItem c2c ch2c excl' := by
  rw [mem_build_safe_ids] at *
  obtain ⟨s, hs, hrtg⟩ := hz
  refine ⟨s, ?_, hrtg⟩
  rw [build_safe_seeds_mem] at *
  obtain ⟨p, hp, hx, hseed⟩ := hs
  exact ⟨p, hp, hx, h _ hseed⟩

theorem build_safe_ids_fuel_irrelevant (idToItem : List (String × XML)) (c2c : C2C)
    (ch2c : CH2C) (excl : List String) (k : Nat) :
    bfsLoopF c2c ch2c (bfs_fuel c2c ch2c (build_safe_seeds idToItem excl).2 + k)
      (build_safe_seeds idToItem excl).1 (build_safe_seeds idToItem excl).2 =
    build_safe_ids idToItem c2c ch2c excl := by
  unfold build_safe_ids
  exact bfsLoopF_add _ _ _ _ _ _ (measure_le_fuel _ _ _ _)

theorem splitGo_all_run (p : Char → Bool) (ds : List Char) (hds : ∀ d ∈ ds, p d = false) :
    ∀ acc, splitGo p acc ds = if (acc ++ ds) == [] then [] else [⟨acc ++ ds⟩] := by
  induction ds with
  | nil =>
    intro acc
    simp [splitGo]
  | cons d ds ih =>
    intro acc
    have hd : p d = false := hds d (List.mem_cons_self _ _)
    rw [splitGo, if_neg (by simp [hd])]
    rw [ih (fun x hx => hds x (List.mem_cons_of_mem _ hx)) (acc ++ [d])]
    have h1 : acc ++ [d] ++ ds = acc ++ d :: ds := by simp
    rw [h1]

theorem splitGo_run_sep (p : Char → Bool) (ds : List Char) (hds : ∀ d ∈ ds, p d = false)
    (c : Char) (hc : p c = true) (ts : List Char) :
    ∀ acc, splitGo p acc (ds ++ c :: ts) =
      (if (acc ++ ds) == [] then [] else [⟨acc ++ ds⟩]) ++ splitGo p [] ts := by
  induction ds with
  | nil =>
    intro acc
    simp only [List.nil_append, List.append_nil]
    rw [splitGo, if_pos hc]
  | cons d ds ih =>
    intro acc
    have hd : p d = false := hds d (List.mem_cons_self _ _)
    rw [List.cons_append, splitGo, if_neg (by simp [hd])]
    rw [ih (fun x hx => hds x (List.mem_cons_of_mem _ hx)) (acc ++ [d])]
    have h1 : acc ++ [d] ++ ds = acc ++ d :: ds := by simp
    rw [h1]

theorem removeGo_runs (del : List String) :
    ∀ (cs cur : List Char), (∀ c ∈ cur, c.isDigit = true) →
    splitGo isNonDigit [] (removeGo del cur cs) =
      (splitGo isNonDigit cur cs).filter (fun r => !del.contains r) := by
  intro cs
  induction cs with
  | nil =>
    intro cur hcur
    rw [removeGo, splitGo]
    unfold emitRun
    by_cases h0 : cur == []
    · rw [if_pos h0, if_pos h0]
      simp [splitGo]
    · rw [if_neg h0, if_neg h0]
      by_cases h1 : del.contains (⟨cur⟩ : String)
      · rw [if_pos h1]
        simp only [List.filter_cons, h1]
        simp [splitGo]
      · rw [if_neg h1]
        rw [splitGo_all_run isNonDigit cur (fun d hd => by simp [isNonDigit, hcur d hd]) []]
        simp only [List.nil_append, List.filter_cons]
        rw [if_neg h0]
        simp only [h1]
        simp
  | cons c cs ih =>
    intro cur hcur
    by_cases hd : c.isDigit
    · rw [removeGo, if_pos hd, splitGo, if_neg (by simp [isNonDigit, hd])]
      exact ih (cur ++ [c]) (fun x hx => by
        rcases List.mem_append.mp hx with h2 | h2
        · exact hcur x h2
        · rw [List.mem_singleton.mp h2]
          exact hd)
    · have hnd : isNonDigit c = true := by simp [isNonDigit, hd]
      have hall : ∀ d ∈ cur, isNonDigit d = false := fun d hd2 => by
        simp [isNonDigit, hcur d hd2]
      rw [removeGo, if_neg (by simp [hd])]
      conv_rhs => rw [splitGo, if_pos hnd]
      unfold emitRun
      by_cases h0 : cur == []
      · rw [if_pos h0, if_pos h0]
        simp only [List.nil_append]
        rw [splitGo, if_pos hnd, if_pos (show (([] : List Char) == []) = true from rfl)]
        simp only [List.nil_append]
        exact ih [] (by simp)
      · rw [if_neg h0, if_neg h0]
        by_cases h1 : del.contains (⟨cur⟩ : String)
        · rw [if_pos h1]
          simp only [List.nil_append]
          rw [splitGo, if_pos hnd, if_pos (show (([] : List Char) == []) = true from rfl)]
          simp only [List.nil_append]
          rw [ih [] (by simp)]
          rw [List.filter_append, List.filter_cons]
          simp only [h1, Bool.not_true, List.filter_nil]
          simp
        · rw [if_neg h1]
          rw [splitGo_run_sep isNonDigit cur hall c hnd _ []]
          simp only [List.nil_append]
          rw [if_neg h0, ih [] (by simp)]
          rw [List.filter_append, List.filter_cons]
          simp only [h1, Bool.not_false, List.filter_nil]
          simp

theorem removeGo_nondigits (del : List String) :
    ∀ (cs cur : List Char), (∀ c ∈ cur, c.isDigit = true) →
    (removeGo del cur cs).filter (fun c => !c.isDigit) = cs.filter (fun c => !c.isDigit) := by
  intro cs
  induction cs with
  | nil =>
    intro cur hcur
    rw [removeGo]
    have hcf : cur.filter (fun c => !c.isDigit) = [] :=
      List.filter_eq_nil_iff.mpr (fun c hc => by simp [hcur c hc])
    unfold emitRun
    by_cases h0 : cur == []
    · rw [if_pos h0]
    · rw [if_neg h0]
      split
      · rfl
      · rw [hcf]
        rfl
  | cons c cs ih =>
    intro cur hcur
    by_cases hd : c.isDigit
    · rw [removeGo, if_pos hd]
      rw [ih (cur ++ [c]) (fun x hx => by
        rcases List.mem_append.mp hx with h2 | h2
        · exact hcur x h2
        · rw [List.mem_singleton.mp h2]
          exact hd)]
      rw [List.filter_cons, if_neg (by simp [hd])]
    · rw [removeGo, if_neg (by simp [hd])]
      rw [List.filter_append]
      have hcf : (emitRun del cur).filter (fun c => !c.isDigit) = [] := by
        unfold emitRun
        split
        · rfl
        · split
          · rfl
          · exact List.filter_eq_nil_iff.mpr (fun c hc => by simp [hcur c hc])
      rw [hcf, List.filter_cons, if_pos (by simp [hd]), List.filter_cons, if_pos (by simp [hd])]
      rw [ih [] (by simp)]
      rfl

theorem extract_eq_splitGo (v : String) :
    extract_ids_from_contained v = splitGo isNonDigit [] v.data := by
  unfold extract_ids_from_contained
  split
  · rename_i h
    have hv : v = "" := beq_iff_eq.mp h
    subst hv
    simp [splitGo]
  · rfl

theorem remove_deleted_runs (v : String) (del : List String) :
    extract_ids_from_contained (remove_deleted_ids_from_contained v del) =
      (extract_ids_from_contained v).filter (fun r => !del.contains r) := by
  unfold remove_deleted_ids_from_contained
  split
  · rename_i h
    simp only [Bool.or_eq_true, beq_iff_eq] at h
    rcases h with h2 | h2
    · subst h2
      simp [extract_ids_from_contained]
    · subst h2
      have : ∀ r : String, (!(([] : List String).contains r)) = true := fun r => rfl
      rw [List.filter_eq_self.mpr (fun r _ => this r)]
  · rw [extract_eq_splitGo, extract_eq_splitGo]
    exact removeGo_runs del v.data [] (by simp)

theorem remove_deleted_nondigits (v : String) (del : List String) :
    (remove_deleted_ids_from_contained v del).data.filter (fun c => !c.isDigit) =
      v.data.filter (fun c => !c.isDigit) := by
  unfold remove_deleted_ids_from_contained
  split
  · rfl
  · exact removeGo_nondigits del v.data [] (by simp)

theorem mem_preorder_go (cs : List XML) (n : XML) :
    n ∈ preorder.go cs ↔ ∃ c ∈ cs, n ∈ preorder c := by
  induction cs with
  | nil => simp [preorder.go]
  | cons c rest ih =>
    rw [preorder.go]
    constructor
    · intro h
      rcases List.mem_append.mp h with h2 | h2
      · exact ⟨c, List.mem_cons_self _ _, h2⟩
      · obtain ⟨d, hd, hn⟩ := ih.mp h2
        exact ⟨d, List.mem_cons_of_mem _ hd, hn⟩
    · rintro ⟨d, hd, hn⟩
      rcases List.mem_cons.mp hd with h2 | h2
      · exact List.mem_append_left _ (h2 ▸ hn)
      · exact List.mem_append_right _ (ih.mpr ⟨d, h2, hn⟩)

theorem preorder_eq (x : XML) : preorder x = x :: properDescendants x := by
  cases x
  rfl

theorem self_mem_preorder (x : XML) : x ∈ preorder x := by
  rw [preorder_eq]
  exact List.mem_cons_self _ _

theorem dictGet_dictSet_self {β : Type} (m : List (String × β)) (k : String) (v : β) :
    dictGet (dictSet m k v) k = some v := by
  unfold dictSet
  split
  · rename_i hany
    induction m with
    | nil => simp at hany
    | cons p ps ih =>
      by_cases hp : p.1 == k
      · unfold dictGet
        simp only [List.map_cons, hp, if_pos]
        rw [List.find?_cons_of_pos _ (by simp)]
        rfl
      · simp only [List.any_cons, hp, Bool.false_or] at hany
        unfold dictGet at *
        simp only [List.map_cons, hp, if_neg, Bool.false_eq_true, not_false_iff]
        rw [List.find?_cons_of_neg _ (by simp [hp])]
        exact ih hany
  · rename_i hany
    induction m with
    | nil =>
      unfold dictGet
      simp [List.find?_cons_of_pos]
    | cons p ps ih =>
      simp only [List.any_cons, Bool.or_eq_true, not_or] at hany
      unfold dictGet at *
      rw [List.cons_append, List.find?_cons_of_neg _ (by simp [hany.1])]
      exact ih (by simp [hany.2])

theorem rewrite_pass_tag (del : List String) (x : XML) : (rewrite_pass del x).tag = x.tag := by
  cases x
  rfl

theorem rewriteIC_tag (del : List String) (x : XML) : (rewriteIC del x).tag = x.tag := by
  unfold rewriteIC
  split
  · cases x
    rfl
  · rfl

theorem rewriteIC_children (del : List String) (x : XML) :
    (rewriteIC del x).children = x.children := by
  unfold rewriteIC
  split
  · cases x
    rfl
  · rfl

theorem mem_rewrite_go (del : List String) (t : String) (cs : List XML) (e : XML) :
    e ∈ rewrite_pass.go del t cs ↔ ∃ c ∈ cs,
      e = (if t == "Item" && (rewrite_pass del c).tag == "ItemContainer"
           then rewriteIC del (rewrite_pass del c) else rewrite_pass del c) := by
  induction cs with
  | nil => simp [rewrite_pass.go]
  | cons c rest ih =>
    rw [rewrite_pass.go]
    constructor
    · intro h
      rcases List.mem_cons.mp h with h2 | h2
      · exact ⟨c, List.mem_cons_self _ _, h2⟩
      · obtain ⟨d, hd, he⟩ := ih.mp h2
        exact ⟨d, List.mem_cons_of_mem _ hd, he⟩
    · rintro ⟨d, hd, he⟩
      rcases List.mem_cons.mp hd with h2 | h2
      · subst h2
        exact he ▸ List.mem_cons_self _ _
      · exact List.mem_cons_of_mem _ (ih.mpr ⟨d, h2, he⟩)

theorem rewriteIC_contained_clean (del : List String) (ic : XML) (r : String)
    (hr : r ∈ extract_ids_from_contained ((attrGet (rewriteIC del ic).attrs "contained").getD "")) :
    r ∉ del := by
  unfold rewriteIC at hr
  split at hr
  · rename_i ht
    cases ic with
    | node t a cs =>
      simp only [XML.withAttrs, XML.attrs] at hr
      rw [show attrGet (dictSet a "contained"
          (remove_deleted_ids_from_contained ((attrGet a "contained").getD "") del)) "contained" =
          some (remove_deleted_ids_from_contained ((attrGet a "contained").getD "") del)
        from dictGet_dictSet_self _ _ _] at hr
      simp only [Option.getD_some] at hr
      rw [remove_deleted_runs] at hr
      have hflt := List.of_mem_filter hr
      intro hmem
      have hc : del.contains r = true := List.elem_iff.mpr hmem
      rw [hc] at hflt
      simp at hflt
  · rename_i ht
    cases hg : attrGet ic.attrs "contained" with
    | none =>
      rw [hg] at hr
      simp [extract_ids_from_contained] at hr
    | some s =>
      rw [hg] at hr
      have hs : s = "" := by
        rw [hg] at ht
        simp [truthy] at ht
        exact ht
      subst hs
      simp [extract_ids_from_contained] at hr

theorem rewrite_pass_clean (del : List String) : ∀ x, ∀ n ∈ preorder (rewrite_pass del x),
    n.tag = "Item" → ∀ ic ∈ n.children, ic.tag = "ItemContainer" →
    ∀ r ∈ extract_ids_from_contained ((attrGet ic.attrs "contained").getD ""), r ∉ del := by
  intro x
  induction x using XML.strongInd with
  | _ t a cs ih =>
    intro n hn htag ic hic hictag r hr
    rw [show rewrite_pass del (.node t a cs) = .node t a (rewrite_pass.go del t cs) from rfl,
      preorder_eq] at hn
    rcases List.mem_cons.mp hn with h2 | h2
    · subst h2
      simp only [XML.tag] at htag
      simp only [XML.children] at hic
      obtain ⟨c, hc, hice⟩ := (mem_rewrite_go del t cs ic).mp hic
      by_cases hcond : (t == "Item" && (rewrite_pass del c).tag == "ItemContainer") = true
      · rw [if_pos hcond] at hice
        exact rewriteIC_contained_clean del (rewrite_pass del c) r (hice ▸ hr)
      · rw [if_neg hcond] at hice
        exfalso
        apply hcond
        simp only [Bool.and_eq_true, beq_iff_eq]
        exact ⟨htag, hice ▸ hictag⟩
    · simp only [properDescendants, XML.children] at h2
      obtain ⟨e, he, hn2⟩ := (mem_preorder_go _ _).mp h2
      obtain ⟨c, hc, hee⟩ := (mem_rewrite_go del t cs e).mp he
      by_cases hcond : (t == "Item" && (rewrite_pass del c).tag == "ItemContainer") = true
      · rw [if_pos hcond] at hee
        subst hee
        rw [preorder_eq] at hn2
        rcases List.mem_cons.mp hn2 with h3 | h3
        · exfalso
          subst h3
          rw [rewriteIC_tag] at htag
          simp only [Bool.and_eq_true, beq_iff_eq] at hcond
          rw [htag] at hcond
          exact absurd hcond.2 (by decide)
        · have hn3 : n ∈ preorder (rewrite_pass del c) := by
            rw [preorder_eq]
            refine List.mem_cons_of_mem _ ?_
            simp only [properDescendants] at h3 ⊢
            rw [rewriteIC_children] at h3
            exact h3
          exact ih c hc n hn3 htag ic hic hictag r hr
      · rw [if_neg hcond] at hee
        subst hee
        exact ih c hc n hn2 htag ic hic hictag r hr

theorem setAddAll_grow {β : Type} [BEq β] [LawfulBEq β] (s xs : List β) (x : β) (h : x ∈ s) :
    x ∈ setAddAll s xs := by
  unfold setAddAll
  induction xs generalizing s with
  | nil => exact h
  | cons y ys ih =>
    rw [List.foldl_cons]
    apply ih
    split
    · exact h
    · exact List.mem_append_left _ h

theorem setAddAll_covers {β : Type} [BEq β] [LawfulBEq β] (s xs : List β) (x : β) (h : x ∈ xs) :
    x ∈ setAddAll s xs := by
  unfold setAddAll
  induction xs generalizing s with
  | nil => cases h
  | cons y ys ih =>
    rw [List.foldl_cons]
    rcases List.mem_cons.mp h with h2 | h2
    · subst h2
      have : x ∈ (if s.contains x then s else s ++ [x]) := by
        split
        · exact List.elem_iff.mp (by assumption)
        · simp
      exact setAddAll_grow _ _ _ this
    · exact ih _ h2

theorem staticStep_grow (s : List Os) (p : String × XML) (x : Os) (h : x ∈ s) :
    x ∈ staticStep s p := by
  unfold staticStep
  split
  · exact h
  split
  · exact h
  · exact List.mem_append_left _ h

theorem staticFold_grow (l : List (String × XML)) (s : List Os) (x : Os) (h : x ∈ s) :
    x ∈ l.foldl staticStep s := by
  induction l generalizing s with
  | nil => exact h
  | cons p ps ih => exact ih _ (staticStep_grow _ _ _ h)

theorem linkStep_grow (idm : List (String × XML)) (acc : List String) (link : XML) (w : String)
    (h : w ∈ acc) : w ∈ linkStep idm acc link := by
  cases hg : attrGet link.attrs "w" with
  | none =>
    simp only [linkStep, hg]
    exact h
  | some w2 =>
    simp only [linkStep, hg]
    split
    · exact h
    · split
      · split
        · exact h
        · exact List.mem_append_left _ h
      · exact h

theorem linkFold_grow (idm : List (String × XML)) (l : List XML) (acc : List String) (w : String)
    (h : w ∈ acc) : w ∈ l.foldl (linkStep idm) acc := by
  induction l generalizing acc with
  | nil => exact h
  | cons x xs ih => exact ih _ (linkStep_grow _ _ _ _ h)

theorem linkStep_adds (idm : List (String × XML)) (acc : List String) (link : XML) (w : String)
    (hw : attrGet link.attrs "w" = some w) (hw0 : ¬(w == "") = true)
    (hk : (idm.any fun p => p.1 == w) = true) : w ∈ linkStep idm acc link := by
  simp only [linkStep, hw]
  rw [if_neg hw0, if_pos hk]
  split
  · exact List.elem_iff.mp (by assumption)
  · simp

theorem collect_link_w_ids_mem (root : XML) (idm : List (String × XML)) (link : XML) (w : String)
    (hl : link ∈ iterTag "link" root) (hw : attrGet link.attrs "w" = some w)
    (hw0 : ¬(w == "") = true) (hk : (idm.any fun p => p.1 == w) = true) :
    w ∈ collect_link_w_ids root idm := by
  unfold collect_link_w_ids
  have hgen : ∀ (l : List XML) (acc : List String), link ∈ l →
      w ∈ l.foldl (linkStep idm) acc := by
    intro l
    induction l with
    | nil =>
      intro acc h
      cases h
    | cons x xs ih =>
      intro acc h
      rcases List.mem_cons.mp h with h2 | h2
      · subst h2
        exact linkFold_grow idm xs (linkStep idm acc link) w (linkStep_adds idm acc link w hw hw0 hk)
      · exact ih _ h2
  exact hgen _ _ hl

theorem item_is_deletable_elim (item : XML) (safe : List Os)
    (h : item_is_deletable item safe = true) :
    ∃ iid, attrGet item.attrs "ID" = some iid ∧ iid ≠ "" ∧ some iid ∉ safe := by
  cases hg : attrGet item.attrs "ID" with
  | none =>
    simp only [item_is_deletable, hg] at h
    simp at h
  | some iid =>
    simp only [item_is_deletable, hg] at h
    refine ⟨iid, rfl, ?_, ?_⟩
    · intro he
      rw [he] at h
      simp at h
    · intro hmem
      have hc : safe.contains (some iid) = true := List.elem_iff.mpr hmem
      rw [if_neg ?_, if_pos hc] at h
      · simp at h
      · intro he
        have : iid = "" := beq_iff_eq.mp he
        rw [this] at h
        simp at h

theorem collectIdStep_new (acc : List String) (c : XML) (id : String)
    (h : id ∈ collectIdStep acc c) : id ∈ acc ∨ attrGet c.attrs "ID" = some id := by
  cases hg : attrGet c.attrs "ID" with
  | none =>
    simp only [collectIdStep, hg] at h
    exact Or.inl h
  | some iid =>
    simp only [collectIdStep, hg] at h
    split at h
    · exact Or.inl h
    · rcases List.mem_append.mp h with h2 | h2
      · exact Or.inl h2
      · exact Or.inr (by rw [List.mem_singleton.mp h2])

theorem collectIdFold_new (l : List XML) (acc : List String) (id : String)
    (h : id ∈ l.foldl collectIdStep acc) : id ∈ acc ∨ ∃ c ∈ l, attrGet c.attrs "ID" = some id := by
  induction l generalizing acc with
  | nil => exact Or.inl h
  | cons c cs ih =>
    rcases ih _ h with h2 | h2
    · rcases collectIdStep_new _ _ _ h2 with h3 | h3
      · exact Or.inl h3
      · exact Or.inr ⟨c, List.mem_cons_self _ _, h3⟩
    · obtain ⟨d, hd, he⟩ := h2
      exact Or.inr ⟨d, List.mem_cons_of_mem _ hd, he⟩

theorem deleted_item_ids_mem (root : XML) (safe : List Os) (id : String)
    (h : id ∈ deleted_item_ids root safe) :
    ∃ c ∈ properDescendants root, item_deletable_node c safe = true ∧
      attrGet c.attrs "ID" = some id := by
  unfold deleted_item_ids at h
  rcases collectIdFold_new _ _ _ h with h2 | h2
  · cases h2
  · obtain ⟨c, hc, he⟩ := h2
    have := List.mem_filter.mp hc
    exact ⟨c, this.1, this.2, he⟩

theorem deleted_not_safe (root : XML) (safe : List Os) (id : String)
    (h : id ∈ deleted_item_ids root safe) :
    id ≠ "" ∧ some id ∉ safe ∧
      ∃ c ∈ properDescendants root, c.tag = "Item" ∧ attrGet c.attrs "ID" = some id := by
  obtain ⟨c, hc, hdel, hid⟩ := deleted_item_ids_mem root safe id h
  have hdel2 := hdel
  unfold item_deletable_node at hdel2
  rw [Bool.and_eq_true] at hdel2
  obtain ⟨iid, hiid, hne, hns⟩ := item_is_deletable_elim c safe hdel2.2
  rw [hid] at hiid
  have heq : id = iid := by
    injection hiid
  subst heq
  exact ⟨hne, hns, c, hc, beq_iff_eq.mp hdel2.1, hid⟩

theorem safe_ids_final_links (root : XML) (excl : List String) (w : String)
    (h : w ∈ collect_link_w_ids root (build_maps_for_items root).1) :
    some w ∈ safe_ids_final root excl := by
  unfold safe_ids_final
  apply staticFold_grow
  apply setAddAll_covers
  exact List.mem_map.mpr ⟨w, h, rfl⟩

theorem remove_stack_pass_tag (x : XML) : (remove_stack_pass x).tag = x.tag := by
  cases x
  rfl

theorem remove_stack_pass_attrs (x : XML) : (remove_stack_pass x).attrs = x.attrs := by
  cases x
  rfl

theorem stacksize_hit_attrs (x y : XML) (h : x.attrs = y.attrs) :
    stacksize_hit x = stacksize_hit y := by
  unfold stacksize_hit
  rw [h]

theorem mem_remove_stack_go (cs : List XML) (e : XML) :
    e ∈ remove_stack_pass.go cs ↔ ∃ c ∈ cs,
      (c.tag == "Stat" && stacksize_hit c) = false ∧ e = remove_stack_pass c := by
  induction cs with
  | nil => simp [remove_stack_pass.go]
  | cons c rest ih =>
    rw [remove_stack_pass.go]
    constructor
    · intro h
      rcases List.mem_append.mp h with h2 | h2
      · split at h2
        · cases h2
        · rename_i hc
          exact ⟨c, List.mem_cons_self _ _, Bool.eq_false_iff.mpr hc, List.mem_singleton.mp h2⟩
      · obtain ⟨d, hd, hf, he⟩ := ih.mp h2
        exact ⟨d, List.mem_cons_of_mem _ hd, hf, he⟩
    · rintro ⟨d, hd, hf, he⟩
      rcases List.mem_cons.mp hd with h2 | h2
      · subst h2
        apply List.mem_append_left
        rw [if_neg (by simp [hf])]
        exact he ▸ List.mem_singleton.mpr rfl
      · exact List.mem_append_right _ (ih.mpr ⟨d, h2, hf, he⟩)

theorem remove_stack_pass_clean : ∀ x, ∀ n ∈ properDescendants (remove_stack_pass x),
    (n.tag == "Stat" && stacksize_hit n) = false := by
  intro x
  induction x using XML.strongInd with
  | _ t a cs ih =>
    intro n hn
    have hpd : properDescendants (remove_stack_pass (.node t a cs)) =
        preorder.go (remove_stack_pass.go cs) := rfl
    rw [hpd] at hn
    obtain ⟨e, he, hn2⟩ := (mem_preorder_go _ _).mp hn
    obtain ⟨c, hc, hf, hee⟩ := (mem_remove_stack_go cs e).mp he
    subst hee
    rw [preorder_eq] at hn2
    rcases List.mem_cons.mp hn2 with h2 | h2
    · subst h2
      rw [show (remove_stack_pass c).tag = c.tag from remove_stack_pass_tag c] at *
      rw [stacksize_hit_attrs (remove_stack_pass c) c (remove_stack_pass_attrs c)]
      exact hf
    · exact ih c hc n h2

theorem filter_stat_count (root : XML) :
    (remove_extra_stacksize_stats root).2 +
      (if (root.tag == "Stat" && stacksize_hit root) = true then 1 else 0) =
    ((iterTag "Stat" root).filter stacksize_hit).length := by
  unfold remove_extra_stacksize_stats iterTag
  rw [preorder_eq]
  rw [List.filter_cons]
  by_cases hroot : (root.tag == "Stat") = true
  · rw [if_pos hroot, List.filter_cons]
    by_cases hhit : stacksize_hit root = true
    · rw [if_pos hhit]
      simp only [List.length_cons]
      rw [if_pos (by simp [hroot, hhit])]
      have : (properDescendants root).filter (fun c => c.tag == "Stat" && stacksize_hit c) =
          ((properDescendants root).filter (fun c => c.tag == "Stat")).filter stacksize_hit := by
        rw [List.filter_filter]
        apply List.filter_congr
        intro c hc
        rw [Bool.and_comm]
      rw [this]
    · rw [if_neg hhit]
      rw [if_neg (by simp [hhit])]
      have : (properDescendants root).filter (fun c => c.tag == "Stat" && stacksize_hit c) =
          ((properDescendants root).filter (fun c => c.tag == "Stat")).filter stacksize_hit := by
        rw [List.filter_filter]
        apply List.filter_congr
        intro c hc
        rw [Bool.and_comm]
      rw [this]
      simp
  · rw [if_neg hroot]
    rw [if_neg (by simp [hroot])]
    have : (properDescendants root).filter (fun c => c.tag == "Stat" && stacksize_hit c) =
        ((properDescendants root).filter (fun c => c.tag == "Stat")).filter stacksize_hit := by
      rw [List.filter_filter]
      apply List.filter_congr
      intro c hc
      rw [Bool.and_comm]
    rw [this]
    simp

theorem has_behavior_component_iff (item : XML) :
    has_behavior_component item = true ↔ ∃ c ∈ item.children, c.tag ∈ BEHAVIOR_COMPONENT_TAGS := by
  unfold has_behavior_component
  rw [List.any_eq_true]
  constructor
  · rintro ⟨t, ht, hf⟩
    rw [Option.isSome_iff_exists] at hf
    obtain ⟨c, hc⟩ := hf
    have hmem := List.mem_of_find?_eq_some hc
    have hp := List.find?_some hc
    refine ⟨c, hmem, ?_⟩
    rw [beq_iff_eq.mp hp]
    exact ht
  · rintro ⟨c, hc, ht⟩
    refine ⟨c.tag, ht, ?_⟩
    cases hf : item.children.find? (fun d => d.tag == c.tag) with
    | some d => simp
    | none =>
      exfalso
      have := List.find?_eq_none.mp hf c hc
      simp at this

theorem toLower_toNat (c : Char) :
    (Char.toLower c).toNat = if c.toNat ≥ 65 ∧ c.toNat ≤ 90 then c.toNat + 32 else c.toNat := by
  show (if c.toNat ≥ 65 ∧ c.toNat ≤ 90 then Char.ofNat (c.toNat + 32) else c).toNat = _
  split
  · exact char_toNat_ofNat_valid (Or.inl (by omega))
  · rfl

theorem toLower_eq_self (c : Char) (h : ¬(c.toNat ≥ 65 ∧ c.toNat ≤ 90)) : c.toLower = c := by
  show (if c.toNat ≥ 65 ∧ c.toNat ≤ 90 then Char.ofNat (c.toNat + 32) else c) = c
  rw [if_neg h]

theorem isTagSep_false_of (c : Char)
    (h : 65 ≤ c.toNat ∧ c.toNat ≤ 90 ∨ 97 ≤ c.toNat ∧ c.toNat ≤ 122) :
    isTagSep c = false := by
  have h44 : c ≠ ',' := by
    intro he
    rw [he] at h
    exact absurd h (by decide)
  have h32 : ¬(c = ' ') := by
    intro he
    rw [he] at h
    exact absurd h (by decide)
  have h9 : ¬(c = '\t') := by
    intro he
    rw [he] at h
    exact absurd h (by decide)
  have h13 : ¬(c = '\r') := by
    intro he
    rw [he] at h
    exact absurd h (by decide)
  have h10 : ¬(c = '\n') := by
    intro he
    rw [he] at h
    exact absurd h (by decide)
  unfold isTagSep Char.isWhitespace
  rw [beq_eq_false_iff_ne.mpr h44]
  rw [decide_eq_false h32, decide_eq_false h9, decide_eq_false h13, decide_eq_false h10]
  rfl

theorem isTagSep_toLower (c : Char) : isTagSep c.toLower = isTagSep c := by
  by_cases h : c.toNat ≥ 65 ∧ c.toNat ≤ 90
  · rw [isTagSep_false_of c (Or.inl h)]
    apply isTagSep_false_of
    refine Or.inr ?_
    rw [toLower_toNat, if_pos h]
    omega
  · rw [toLower_eq_self c h]

theorem lowerStr_mk_map (l : List Char) :
    lowerStr ⟨l.map Char.toLower⟩ = lowerStr ⟨l⟩ := by
  unfold lowerStr
  simp only [List.map_map]
  have h2 : Char.toLower ∘ Char.toLower = Char.toLower := funext char_toLower_idem
  rw [h2]

theorem splitGo_lower (l : List Char) : ∀ cur : List Char,
    (splitGo isTagSep (cur.map Char.toLower) (l.map Char.toLower)).map lowerStr =
      (splitGo isTagSep cur l).map lowerStr := by
  induction l with
  | nil =>
    intro cur
    rw [List.map_nil, splitGo, splitGo]
    by_cases h0 : cur == []
    · have hc : cur = [] := beq_iff_eq.mp h0
      subst hc
      rfl
    · rw [if_neg h0, if_neg ?_]
      · simp only [List.map_cons, List.map_nil]
        rw [lowerStr_mk_map]
      · intro hmap
        apply h0
        have : cur.map Char.toLower = [] := beq_iff_eq.mp hmap
        simp at this
        simp [this]
  | cons c cs ih =>
    intro cur
    rw [List.map_cons, splitGo, splitGo, isTagSep_toLower]
    by_cases hsep : isTagSep c = true
    · rw [if_pos hsep, if_pos hsep]
      rw [List.map_append, List.map_append]
      have hih := ih []
      rw [show (([] : List Char).map Char.toLower) = [] from rfl] at hih
      rw [hih]
      by_cases h0 : cur == []
      · have hc : cur = [] := beq_iff_eq.mp h0
        subst hc
        rfl
      · rw [if_neg h0, if_neg ?_]
        · simp only [List.map_cons, List.map_nil]
          rw [lowerStr_mk_map]
        · intro hmap
          apply h0
          have : cur.map Char.toLower = [] := beq_iff_eq.mp hmap
          simp at this
          simp [this]
    · rw [if_neg hsep, if_neg hsep]
      have := ih (cur ++ [c])
      rw [List.map_append] at this
      exact this

theorem tag_tokens_lower (raw : String) : tag_tokens (lowerStr raw) = tag_tokens raw := by
  unfold tag_tokens
  have : (lowerStr raw).data = raw.data.map Char.toLower := rfl
  rw [this]
  have h2 := splitGo_lower raw.data []
  rw [show (([] : List Char).map Char.toLower) = [] from rfl] at h2
  exact h2

theorem applyStat_single (A S v0 v1 : String) (hA : lowerStr A = lowerStr S) (hA0 : A ≠ "") :
    applyStat (lowerStr S) v0 [(A, v1)] = ([(A, v0)], 1) := by
  unfold applyStat find_attr_case_insensitive
  rw [lowerStr_idem]
  rw [List.find?_cons_of_pos _ (by simp [hA])]
  simp only [Option.map_some']
  rw [if_neg (by simp [hA0])]
  unfold dictSet
  rw [if_pos (by simp)]
  simp

theorem revert_this_single (A S TH v0 v1 : String) (hA : lowerStr A = lowerStr S) (hA0 : A ≠ "")
    (hTH : lowerStr TH = "this") :
    process_upgrades (.node "Item" [(A, v1)]
      [.node "Upgrade" [] [.node TH [] [.node S [("value", v0)] []]]]) =
    .node "Item" [(A, v0)] [] := by
  have h1 : (lowerStr TH == "this") = true := by
    simp [hTH]
  have h2 := applyStat_single A S v0 v1 hA hA0
  simp [process_upgrades, processNode, procChildren, XML.tag, XML.children, XML.attrs,
    revert_upgrade, revertComp, h1, revertStatsThis, attrGet, dictGet, List.find?, h2]

theorem revert_child_single (A S T v0 v1 : String) (hA : lowerStr A = lowerStr S) (hA0 : A ≠ "")
    (hT : T ≠ "Upgrade") (hT2 : lowerStr T ≠ "this") :
    process_upgrades (.node "Item" []
      [.node T [(A, v1)] [],
       .node "Upgrade" [] [.node T [] [.node S [("value", v0)] []]]]) =
    .node "Item" [] [.node T [(A, v0)] []] := by
  have h1 : (lowerStr T == "this") = false := by
    simp [hT2]
  have h2 := applyStat_single A S v0 v1 hA hA0
  have h3 : (T == "Upgrade") = false := by
    simp [hT]
  have h4 : (("Upgrade" : String) == T) = false := by
    simp
    intro he
    exact hT he.symm
  have h5 : (T == T) = true := by simp
  simp [process_upgrades, processNode, procChildren, XML.tag, XML.children, XML.attrs,
    revert_upgrade, revertComp, h1, h2, h3, h4, h5, revertCompStep, patchAll, patchSib,
    attrGet, dictGet, List.find?, XML.withAttrs]


/-- C1 counterexample: the item-stripping pass removes no link nodes.  On a
document whose only link node has no target attribute at all, the pass
leaves the tree unchanged, so a link node with a missing target survives,
contradicting the claim that such link nodes are removed. -/
theorem c1_counterexample :
    (delete_tagged_items (.node "Submarine" [] [.node "link" [] []]) []).1 =
      .node "Submarine" [] [.node "link" [] []] ∧
    (XML.node "link" [] []) ∈
      preorder (delete_tagged_items (.node "Submarine" [] [.node "link" [] []]) []).1 ∧
    attrGet (XML.node "link" [] []).attrs "w" = none := by
  refine ⟨by decide, by decide, by decide⟩

/-- C1 amended: delete_tagged_items never removes link nodes; instead every
link node whose w attribute is truthy and refers to an existing item id has
that id added to the final safe set, so the link's target object is never
pruned (its id is not among the deleted ids).  Link nodes with missing or
unknown targets simply survive unrepaired. -/
theorem c1_theorem (root : XML) (excl : List String) (link : XML) (w : String)
    (hpre : link ∈ preorder root) (htag : link.tag = "link")
    (hw : attrGet link.attrs "w" = some w) (hne : w ≠ "")
    (hk : ((build_maps_for_items root).1.any fun p => p.1 == w) = true) :
    some w ∈ safe_ids_final root excl ∧ w ∉ (delete_tagged_items root excl).2 := by
  have hiter : link ∈ iterTag "link" root := List.mem_filter.mpr ⟨hpre, by simp [htag]⟩
  have hw0 : ¬(w == "") = true := by simp [hne]
  have hcol := collect_link_w_ids_mem root (build_maps_for_items root).1 link w hiter hw hw0 hk
  have hsafe := safe_ids_final_links root excl w hcol
  refine ⟨hsafe, ?_⟩
  intro hdel
  have h2 : (delete_tagged_items root excl).2 =
      deleted_item_ids root (safe_ids_final root excl) := rfl
  rw [h2] at hdel
  obtain ⟨_, hnot, _⟩ := deleted_not_safe root _ w hdel
  exact hnot hsafe

/-- C1 witness: on a document with a link pointing at an existing smallitem,
the amended theorem puts the target in the safe set and keeps it
undeleted. -/
theorem c1_theorem_witness :
    some "3" ∈ safe_ids_final (.node "Submarine" []
        [.node "Item" [("ID","3"),("Tags","smallitem")] [.node "Holdable" [] []],
         .node "link" [("w","3")] []]) [] ∧
    "3" ∉ (delete_tagged_items (.node "Submarine" []
        [.node "Item" [("ID","3"),("Tags","smallitem")] [.node "Holdable" [] []],
         .node "link" [("w","3")] []]) []).2 :=
  c1_theorem _ [] (.node "link" [("w","3")] []) "3" (by decide) rfl rfl (by decide) (by decide)

/-- C2 counterexample: a component-change tag differing only in case from
the sub-component's tag ("motor" vs "Motor") matches no target, so the
recorded value "0.5" is not restored (the attribute stays "2.0") even
though the modifier node is removed; reversion is not invariant under case
variants of the component-change tag name. -/
theorem c2_counterexample :
    process_upgrades (.node "Item" []
      [.node "Motor" [("speed", "2.0")] [],
       .node "Upgrade" [] [.node "motor" [] [.node "Speed" [("value", "0.5")] []]]]) =
    .node "Item" [] [.node "Motor" [("speed", "2.0")] []] ∧
    process_upgrades (.node "Item" []
      [.node "Motor" [("speed", "2.0")] [],
       .node "Upgrade" [] [.node "motor" [] [.node "Speed" [("value", "0.5")] []]]]) ≠
    .node "Item" [] [.node "Motor" [("speed", "0.5")] []] := by
  have h1 : (lowerStr "motor" == "this") = false := by decide
  have h : process_upgrades (.node "Item" []
      [.node "Motor" [("speed", "2.0")] [],
       .node "Upgrade" [] [.node "motor" [] [.node "Speed" [("value", "0.5")] []]]]) =
      .node "Item" [] [.node "Motor" [("speed", "2.0")] []] := by
    simp [process_upgrades, processNode, procChildren, XML.tag, XML.children, XML.attrs,
      revert_upgrade, revertComp, h1, revertCompStep, patchAll, patchSib,
      attrGet, dictGet, List.find?, XML.withAttrs]
  refine ⟨h, ?_⟩
  rw [h]
  decide

/-- C2 amended: reversion restores the recorded value and removes the
modifier node for every case variant of the attribute name and of the stat
tag (and of the self-marker "this"), but the component-change tag must
match the target child's tag exactly; both the self-marker form and the
exact-tag child form are covered. -/
theorem c2_theorem (A S TH T v0 v1 : String) (hA : lowerStr A = lowerStr S) (hA0 : A ≠ "")
    (hTH : lowerStr TH = "this") (hT : T ≠ "Upgrade") (hT2 : lowerStr T ≠ "this") :
    process_upgrades (.node "Item" [(A, v1)]
      [.node "Upgrade" [] [.node TH [] [.node S [("value", v0)] []]]]) =
      .node "Item" [(A, v0)] [] ∧
    process_upgrades (.node "Item" []
      [.node T [(A, v1)] [],
       .node "Upgrade" [] [.node T [] [.node S [("value", v0)] []]]]) =
      .node "Item" [] [.node T [(A, v0)] []] :=
  ⟨revert_this_single A S TH v0 v1 hA hA0 hTH,
   revert_child_single A S T v0 v1 hA hA0 hT hT2⟩

/-- C2 witness: a concrete instance with attribute name "Speed", stat tag
"speed", self-marker "This" and component tag "Motor". -/
theorem c2_theorem_witness :
    process_upgrades (.node "Item" [("Speed", "2.0")]
      [.node "Upgrade" [] [.node "This" [] [.node "speed" [("value", "0.5")] []]]]) =
      .node "Item" [("Speed", "0.5")] [] ∧
    process_upgrades (.node "Item" []
      [.node "Motor" [("Speed", "2.0")] [],
       .node "Upgrade" [] [.node "Motor" [] [.node "speed" [("value", "0.5")] []]]]) =
      .node "Item" [] [.node "Motor" [("Speed", "0.5")] []] :=
  c2_theorem "Speed" "speed" "This" "Motor" "0.5" "2.0" (by decide) (by decide) (by decide)
    (by decide) (by decide)

/-- C3 counterexample: the post-BFS additions do not propagate through the
containment graph.  Object 1 is safe only because a link references it;
object 2 directly contains object 1 in the containment map, yet object 2
is not in the final safe set. -/
theorem c3_counterexample :
    some "1" ∈ safe_ids_final (.node "Submarine" []
      [.node "Item" [("ID","1"),("identifier","widget"),("Tags","smallitem")]
        [.node "Holdable" [] []],
       .node "Item" [("ID","2"),("identifier","box"),("Tags","smallitem")]
        [.node "Holdable" [] [], .node "ItemContainer" [("contained","1")] []],
       .node "link" [("w","1")] []]) [] ∧
    "1" ∈ (dictGet (build_maps_for_items (.node "Submarine" []
      [.node "Item" [("ID","1"),("identifier","widget"),("Tags","smallitem")]
        [.node "Holdable" [] []],
       .node "Item" [("ID","2"),("identifier","box"),("Tags","smallitem")]
        [.node "Holdable" [] [], .node "ItemContainer" [("contained","1")] []],
       .node "link" [("w","1")] []])).2.1 "2").getD [] ∧
    some "2" ∉ safe_ids_final (.node "Submarine" []
      [.node "Item" [("ID","1"),("identifier","widget"),("Tags","smallitem")]
        [.node "Holdable" [] []],
       .node "Item" [("ID","2"),("identifier","box"),("Tags","smallitem")]
        [.node "Holdable" [] [], .node "ItemContainer" [("contained","1")] []],
       .node "link" [("w","1")] []]) [] := by
  refine ⟨by decide, by decide, by decide⟩

/-- C3 amended: the bidirectional closure invariant holds for the safe set
returned by the worklist resolution itself (build_safe_ids, before the
post-BFS additions of link targets and behaviour-less objects): whenever x
is in that set, every id x contains and every container recorded for x is
in it too. -/
theorem c3_theorem (idToItem : List (String × XML)) (c2c : C2C) (ch2c : CH2C)
    (excl : List String) (x : String) (hx : some x ∈ build_safe_ids idToItem c2c ch2c excl) :
    (∀ y ∈ (dictGet c2c x).getD [], some y ∈ build_safe_ids idToItem c2c ch2c excl) ∧
    (∀ p ∈ (dictGet ch2c x).getD [], p ∈ build_safe_ids idToItem c2c ch2c excl) := by
  constructor
  · intro y hy
    apply build_safe_ids_closed idToItem c2c ch2c excl (some x) (some y) hx
    unfold nbrsOf
    apply List.mem_append_left
    unfold childNbrs
    exact List.mem_map.mpr ⟨y, hy, rfl⟩
  · intro p hp
    apply build_safe_ids_closed idToItem c2c ch2c excl (some x) p hx
    unfold nbrsOf
    apply List.mem_append_right
    unfold parNbrs
    exact hp

/-- C3 witness: a seeded container propagates safety to its contents. -/
theorem c3_theorem_witness :
    some "2" ∈ build_safe_ids [("1", XML.node "Item" [("ID","1"),("identifier","k")] [])]
      [("1",["2"])] [] ["k"] :=
  (c3_theorem [("1", XML.node "Item" [("ID","1"),("identifier","k")] [])]
    [("1",["2"])] [] ["k"] "1" (by decide)).1 "2" (by decide)

/-- C4 counterexample: both checks are case-sensitive.  A lower-case
"holdable" child is not seen by the behaviour check while "Holdable" is,
and a "TAGS" attribute is not read by the tag extraction while "Tags" is,
so the checks do not give the same answer across case variants. -/
theorem c4_counterexample :
    has_behavior_component (.node "Item" [("ID","1")] [.node "holdable" [] []]) = false ∧
    has_behavior_component (.node "Item" [("ID","1")] [.node "Holdable" [] []]) = true ∧
    item_is_deletable (.node "Item" [("ID","1"),("Tags","smallitem")] []) [] = true ∧
    item_is_deletable (.node "Item" [("ID","1"),("TAGS","smallitem")] []) [] = false := by
  refine ⟨by decide, by decide, by decide, by decide⟩

/-- C4 amended: the behaviour check matches the six sub-node tag names
exactly as spelled in BEHAVIOR_COMPONENT_TAGS, and the tag extraction
reads only the attribute keys "Tags" and "tags"; what IS case-insensitive
is the tag value: lower-casing the raw tags string does not change the
extracted token list. -/
theorem c4_theorem :
    (∀ item : XML, has_behavior_component item = true ↔
      ∃ c ∈ item.children, c.tag ∈ BEHAVIOR_COMPONENT_TAGS) ∧
    (∀ raw : String, tag_tokens (lowerStr raw) = tag_tokens raw) :=
  ⟨has_behavior_component_iff, tag_tokens_lower⟩

/-- C5 counterexample: the contents string of an id-less object's
content-holder IS rewritten by the normalization step.  The id-less item
contains "5"; item 5 is deleted, and the contained attribute is rewritten
to the empty string rather than left as "5". -/
theorem c5_counterexample :
    (delete_tagged_items (.node "Submarine" []
      [.node "Item" [] [.node "ItemContainer" [("contained","5")] []],
       .node "Item" [("ID","5"),("Tags","smallitem")] [.node "Holdable" [] []]]) []).1 =
    .node "Submarine" [] [.node "Item" [] [.node "ItemContainer" [("contained","")] []]] ∧
    (delete_tagged_items (.node "Submarine" []
      [.node "Item" [] [.node "ItemContainer" [("contained","5")] []],
       .node "Item" [("ID","5"),("Tags","smallitem")] [.node "Holdable" [] []]]) []).2 =
    ["5"] := by
  refine ⟨by decide, by decide⟩

/-- C5 amended: after the pass, the contents string of every ItemContainer
child of every Item in the resulting tree, whether the owning item has an
id or not, contains no digit run equal to a deleted id: the rewrite covers
id-less owners like any other. -/
theorem c5_theorem (root : XML) (excl : List String) (n ic : XML) (r : String)
    (hn : n ∈ preorder (delete_tagged_items root excl).1) (htag : n.tag = "Item")
    (hic : ic ∈ n.children) (hictag : ic.tag = "ItemContainer")
    (hr : r ∈ extract_ids_from_contained ((attrGet ic.attrs "contained").getD "")) :
    r ∉ (delete_tagged_items root excl).2 := by
  have h2 : (delete_tagged_items root excl).2 =
      deleted_item_ids root (safe_ids_final root excl) := rfl
  rw [h2]
  by_cases hdel : ((deleted_item_ids root (safe_ids_final root excl)) == []) = true
  · have : deleted_item_ids root (safe_ids_final root excl) = [] := beq_iff_eq.mp hdel
    rw [this]
    simp
  · have h1 : (delete_tagged_items root excl).1 =
        rewrite_pass (deleted_item_ids root (safe_ids_final root excl))
          (delete_pass (safe_ids_final root excl) root) := by
      simp only [delete_tagged_items]
      rw [if_neg hdel]
    rw [h1] at hn
    exact rewrite_pass_clean _ _ n hn htag ic hic hictag r hr

/-- C5 witness: after stripping a document where item 8 is deleted and 9
survives, the run "9" surviving inside the id-7 item's rewritten contents
",9" is not a deleted id. -/
theorem c5_theorem_witness :
    ("9" : String) ∉ (delete_tagged_items (.node "Submarine" []
      [.node "Item" [("ID","7")] [.node "ItemContainer" [("contained","8,9")] []],
       .node "Item" [("ID","8"),("Tags","smallitem")] [.node "Holdable" [] []],
       .node "Item" [("ID","9"),("Tags","wrench")] [.node "Holdable" [] []]]) []).2 :=
  c5_theorem _ [] (.node "Item" [("ID","7")] [.node "ItemContainer" [("contained",",9")] []])
    (.node "ItemContainer" [("contained",",9")] []) "9" (by decide) rfl (by decide) rfl (by decide)

/-- C6: the pruner only ever deletes objects that have a truthy id outside
the safe set: item_is_deletable requires a non-empty ID not in the safe
set, and every id recorded as deleted by delete_tagged_items is non-empty,
outside the final safe set, and belongs to an Item element of the original
tree (so objects with no id are never deleted by the pruner). -/
theorem c6_theorem :
    (∀ (item : XML) (safe : List Os), item_is_deletable item safe = true →
      ∃ iid, attrGet item.attrs "ID" = some iid ∧ iid ≠ "" ∧ some iid ∉ safe) ∧
    (∀ (root : XML) (excl : List String) (id : String),
      id ∈ (delete_tagged_items root excl).2 →
      id ≠ "" ∧ some id ∉ safe_ids_final root excl ∧
        ∃ c ∈ properDescendants root, c.tag = "Item" ∧ attrGet c.attrs "ID" = some id) := by
  constructor
  · exact item_is_deletable_elim
  · intro root excl id h
    have h2 : (delete_tagged_items root excl).2 =
        deleted_item_ids root (safe_ids_final root excl) := rfl
    rw [h2] at h
    exact deleted_not_safe root _ id h

/-- C6 witness: both parts at concrete inputs: a deletable crate with ID 4
against a safe set not containing it, and a concrete document where id 5
is deleted. -/
theorem c6_theorem_witness :
    (∃ iid, attrGet (XML.node "Item" [("ID","4"),("Tags","crate")] []).attrs "ID" = some iid ∧
      iid ≠ "" ∧ some iid ∉ [some "9"]) ∧
    ("5" ≠ "" ∧ some "5" ∉ safe_ids_final (.node "Submarine" []
        [.node "Item" [] [.node "ItemContainer" [("contained","5")] []],
         .node "Item" [("ID","5"),("Tags","smallitem")] [.node "Holdable" [] []]]) [] ∧
      ∃ c ∈ properDescendants (.node "Submarine" []
        [.node "Item" [] [.node "ItemContainer" [("contained","5")] []],
         .node "Item" [("ID","5"),("Tags","smallitem")] [.node "Holdable" [] []]]),
        c.tag = "Item" ∧ attrGet c.attrs "ID" = some "5") :=
  ⟨c6_theorem.1 (.node "Item" [("ID","4"),("Tags","crate")] []) [some "9"] (by decide),
   c6_theorem.2 (.node "Submarine" []
      [.node "Item" [] [.node "ItemContainer" [("contained","5")] []],
       .node "Item" [("ID","5"),("Tags","smallitem")] [.node "Holdable" [] []]]) [] "5"
     (by decide)⟩

/-- C7: the resolved safe set contains every seed (ids of objects whose
lower-cased identifier is excluded), and the resolver is monotone in its
seeds: enlarging the exclusion set (hence the seed set) never removes an
id from the result. -/
theorem c7_theorem (idToItem : List (String × XML)) (c2c : C2C) (ch2c : CH2C)
    (excl excl' : List String) :
    (∀ s ∈ (build_safe_seeds idToItem excl).1, s ∈ build_safe_ids idToItem c2c ch2c excl) ∧
    ((∀ e ∈ excl, e ∈ excl') → ∀ z ∈ build_safe_ids idToItem c2c ch2c excl,
      z ∈ build_safe_ids idToItem c2c ch2c excl') := by
  constructor
  · intro s hs
    exact build_safe_ids_superset idToItem c2c ch2c excl s hs
  · intro hsub z hz
    exact build_safe_ids_mono idToItem c2c ch2c excl excl' hsub z hz

/-- C7 witness: the seed id 1 is in its own resolution, and resolving with
the enlarged exclusion set still contains it. -/
theorem c7_theorem_witness :
    some "1" ∈ build_safe_ids [("1", XML.node "Item" [("ID","1"),("identifier","k")] [])]
      [] [] ["k"] ∧
    some "1" ∈ build_safe_ids [("1", XML.node "Item" [("ID","1"),("identifier","k")] [])]
      [] [] ["k", "j"] :=
  ⟨(c7_theorem [("1", XML.node "Item" [("ID","1"),("identifier","k")] [])] [] [] ["k"] ["k"]).1
      (some "1") (by decide),
   (c7_theorem [("1", XML.node "Item" [("ID","1"),("identifier","k")] [])] [] [] ["k"]
      ["k", "j"]).2 (by decide) (some "1")
      ((c7_theorem [("1", XML.node "Item" [("ID","1"),("identifier","k")] [])] [] [] ["k"]
        ["k"]).1 (some "1") (by decide))⟩

/-- C8: safe-set resolution terminates on every containment graph: the
worklist loop runs on a fuel bound derived from the monotone,
object-count-bounded measure, and any additional fuel leaves the result
unchanged (the loop has already drained its queue); and on the concrete
two-cycle where item 1 contains item 2 and item 2 contains item 1, both
ids end up safe whichever of the two is seeded. -/
theorem c8_theorem :
    (∀ (idToItem : List (String × XML)) (c2c : C2C) (ch2c : CH2C) (excl : List String) (k : Nat),
      bfsLoopF c2c ch2c (bfs_fuel c2c ch2c (build_safe_seeds idToItem excl).2 + k)
        (build_safe_seeds idToItem excl).1 (build_safe_seeds idToItem excl).2 =
      build_safe_ids idToItem c2c ch2c excl) ∧
    (some "1" ∈ build_safe_ids
        [("1", XML.node "Item" [("ID","1"),("identifier","keep")] []),
         ("2", XML.node "Item" [("ID","2"),("identifier","other")] [])]
        [("1",["2"]),("2",["1"])] [("1",[some "2"]),("2",[some "1"])] ["keep"] ∧
     some "2" ∈ build_safe_ids
        [("1", XML.node "Item" [("ID","1"),("identifier","keep")] []),
         ("2", XML.node "Item" [("ID","2"),("identifier","other")] [])]
        [("1",["2"]),("2",["1"])] [("1",[some "2"]),("2",[some "1"])] ["keep"] ∧
     some "1" ∈ build_safe_ids
        [("1", XML.node "Item" [("ID","1"),("identifier","keep")] []),
         ("2", XML.node "Item" [("ID","2"),("identifier","other")] [])]
        [("1",["2"]),("2",["1"])] [("1",[some "2"]),("2",[some "1"])] ["other"] ∧
     some "2" ∈ build_safe_ids
        [("1", XML.node "Item" [("ID","1"),("identifier","keep")] []),
         ("2", XML.node "Item" [("ID","2"),("identifier","other")] [])]
        [("1",["2"]),("2",["1"])] [("1",[some "2"]),("2",[some "1"])] ["other"]) := by
  refine ⟨build_safe_ids_fuel_irrelevant, by decide, by decide, by decide, by decide⟩

/-- C9: rewriting a contents string against a deleted-id set: on the
spec's example "7,8,9" with {8} the result is "7,,9"; in general the
maximal digit runs of the result are exactly the runs of the input that
are not deleted ids, and the non-digit characters (all separators) are
preserved byte for byte in order. -/
theorem c9_theorem :
    remove_deleted_ids_from_contained "7,8,9" ["8"] = "7,,9" ∧
    (∀ (v : String) (del : List String),
      extract_ids_from_contained (remove_deleted_ids_from_contained v del) =
        (extract_ids_from_contained v).filter (fun r => !del.contains r)) ∧
    (∀ (v : String) (del : List String),
      (remove_deleted_ids_from_contained v del).data.filter (fun c => !c.isDigit) =
        v.data.filter (fun c => !c.isDigit)) :=
  ⟨by decide, remove_deleted_runs, remove_deleted_nondigits⟩

/-- C10: with upgrade stripping enabled the pipeline applies
remove_extra_stacksize_stats after reverting upgrades; the pass removes
every Stat node (with a parent) whose type attribute, read as "type"
or-else "Type", lower-cases to "extrastacksize" — none survives among the
result's proper descendants — and the returned count equals the number of
such hits among the original tree's Stat elements that have a parent. -/
theorem c10_theorem :
    (∀ (excl : List String) (t : XML),
      process_tree false excl true t = (remove_extra_stacksize_stats (process_upgrades t)).1) ∧
    (∀ root : XML,
      ((properDescendants (remove_extra_stacksize_stats root).1).all
        (fun n => !(n.tag == "Stat" && stacksize_hit n))) = true) ∧
    (∀ root : XML,
      (remove_extra_stacksize_stats root).2 +
        (if (root.tag == "Stat" && stacksize_hit root) = true then 1 else 0) =
      ((iterTag "Stat" root).filter stacksize_hit).length) := by
  refine ⟨fun excl t => rfl, ?_, filter_stat_count⟩
  intro root
  rw [List.all_eq_true]
  intro n hn
  have := remove_stack_pass_clean root n hn
  simp [this]
